import Mathlib

/-!
Verification development for the embedding-similarity core of the
hair-similarity repository.

The embedding models, in exact arithmetic, the code of
src/app/database.py (search_similar_images, search_similar_images_by_creator),
src/app/image_processing.py (insert_image_row) and the legacy
src/app/app.py (insert_image_row, search_by_upload).

Modelling conventions, fixed once here:
  - IEEE-754 float values are exact rationals; float rounding is out of scope
    of the model.  Vector components are carried as integers: cosine ranking,
    the score bounds and the zero-norm tests are all invariant under positive
    per-vector scaling, so clearing denominators maps every rational (hence
    every float) vector to an integer vector with identical search behaviour,
    and the integer carrier keeps every definition kernel-computable.
  - A cosine-similarity value dot(q,v) / (l2norm q * l2norm v) is irrational in
    general, so a score is carried as the exact pair
    (num = dot q v, den2 = normSq q * normSq v), which denotes the real number
    num / sqrt den2 when den2 is nonzero.  Score.le is the order of those
    denoted reals (decided by sign analysis and squaring); for den2 = 0 the
    real value is undefined (pgvector would produce NaN) and theorems about
    ranking carry a no-zero-norm hypothesis where that matters.
  - Postgres query results: ORDER BY is modelled as a stable sort and
    DISTINCT ON (creator_username) ... ORDER BY creator_username, dist as
    "for each distinct creator in ascending order, the first row of the table
    achieving the minimal distance"; Postgres does not promise which row is
    picked among exact distance ties, the model fixes the first one in table
    order.
  - The UNIQUE(source, source_id) arbiter: rows whose source_id is NULL never
    conflict (SQL NULL semantics), so ON CONFLICT fires only for a non-null
    source_id equal to the stored one.
-/

/-- Squared L2 norm of a vector: the exact value of norm(v)^2 for
numpy.linalg.norm(v); norm(v) == 0 iff normSq v == 0. -/
def normSq (l : List ℤ) : ℤ :=
  (l.map (fun x => x * x)).sum

/-- Exact value of numpy.dot for 1-D arrays.  numpy raises on a length
mismatch; the call sites that may see a mismatch guard on lengths explicitly,
mirroring the try/except in the Python code. -/
def dotList (a b : List ℤ) : ℤ :=
  (List.zipWith (fun x y => x * y) a b).sum

/-- Exact representation of a similarity score: the real number
num / sqrt den2 (cosine similarity of the two raw vectors).  den2 is a
product of squared norms, hence nonnegative by construction. -/
structure Score where
  num : ℤ
  den2 : ℤ
  den2_nonneg : 0 ≤ den2

instance : DecidableEq Score := fun s t =>
  decidable_of_iff (s.num = t.num ∧ s.den2 = t.den2) (by
    cases s; cases t; simp)

/-- Score of stored vector v against query q: cosine similarity
dot(q,v) / (l2norm q * l2norm v), as computed both by the pgvector operator
1 - (embedding <=> q) and by numpy dot of the two normalized vectors. -/
def mkScore (q v : List ℤ) : Score :=
  ⟨dotList q v, normSq q * normSq v, by
    have h : ∀ l : List ℤ, 0 ≤ normSq l := by
      intro l
      refine List.sum_nonneg ?_
      intro y hy
      obtain ⟨x, _, rfl⟩ := List.mem_map.1 hy
      exact mul_self_nonneg x
    exact mul_nonneg (h q) (h v)⟩

/-- Order on exact scores: Score.le s t holds iff the denoted real
s.num / sqrt s.den2 is at most t.num / sqrt t.den2 (for positive den2;
squaring with a sign analysis eliminates the square roots). -/
def Score.le (s t : Score) : Prop :=
  (s.num ≤ 0 ∧ (0 ≤ t.num ∨ t.num ^ 2 * s.den2 ≤ s.num ^ 2 * t.den2)) ∨
  (0 < s.num ∧ 0 < t.num ∧ s.num ^ 2 * t.den2 ≤ t.num ^ 2 * s.den2)

instance Score.decLe : ∀ s t : Score, Decidable (Score.le s t) := fun s t => by
  unfold Score.le
  infer_instance

/-- Strict order on scores, total-order style: s is strictly below t. -/
def Score.lt (s t : Score) : Prop :=
  ¬ Score.le t s

instance Score.decLt : ∀ s t : Score, Decidable (Score.lt s t) := fun s t => by
  unfold Score.lt
  infer_instance

/-- One row of the images table.  id stands for the UUID primary key; the
embedding column is Option-valued to mirror the "embedding IS NOT NULL"
filters of the queries; creator_username is the nullable owner column. -/
structure Row where
  id : Nat
  source : String
  sourceId : Option String
  url : Option String
  hashtags : List String
  width : Option Int
  height : Option Int
  embedding : Option (List ℤ)
  caption : Option String
  mediaId : Option String
  creatorUsername : Option String
  mediaType : Option String
  mediaUrl : Option String
deriving DecidableEq

/-- The CASE WHEN media_id IS NOT NULL THEN CONCAT(...) ELSE url END column
shared by the search queries. -/
def displayUrl (r : Row) : Option String :=
  match r.mediaId with
  | some m => some (("/api/images/" ++ m) ++ ("/proxy"))
  | none => r.url

/-- Score of a row against query q; rows reaching this point always carry
some embedding (the queries filter embedding IS NOT NULL). -/
def rowScore (q : List ℤ) (r : Row) : Score :=
  mkScore q (r.embedding.getD [])

/-- One entry of the flat search result: id, display url, caption,
similarity. -/
structure SearchHit where
  imageId : Nat
  imageUrl : Option String
  caption : Option String
  score : Score
deriving DecidableEq

/-- One entry of the grouped (best per creator) result: creator_username plus
the image payload columns and the similarity score. -/
structure CreatorMatch where
  creatorUsername : String
  imageId : Nat
  mediaId : Option String
  url : Option String
  caption : Option String
  width : Option Int
  height : Option Int
  mediaUrl : Option String
  score : Score
deriving DecidableEq

/-- Comparison used when sorting flat hits by similarity descending: a may
come before b iff b's score is at most a's. -/
def hitLe (a b : SearchHit) : Prop :=
  Score.le b.score a.score

instance : DecidableRel hitLe := fun a b =>
  inferInstanceAs (Decidable (Score.le b.score a.score))

/-- Comparison used when sorting grouped entries by similarity descending. -/
def matchLe (a b : CreatorMatch) : Prop :=
  Score.le b.score a.score

instance : DecidableRel matchLe := fun a b =>
  inferInstanceAs (Decidable (Score.le b.score a.score))

/-- Lexicographic codepoint comparison of character lists (the C collation
byte order for ASCII usernames). -/
def charLeB : List Char → List Char → Bool
  | [], _ => true
  | _ :: _, [] => false
  | c :: cs, d :: ds =>
    if c.toNat < d.toNat then true
    else if d.toNat < c.toNat then false
    else charLeB cs ds

/-- Ascending comparison on creator usernames, for the ORDER BY
creator_username key of the DISTINCT ON query.  Postgres collation is
configuration-dependent; the model fixes codepoint order. -/
def strLe (a b : String) : Prop :=
  charLeB a.data b.data = true

instance : DecidableRel strLe := fun a b =>
  inferInstanceAs (Decidable (charLeB a.data b.data = true))

/-- Python list slicing l[:n] for an int n: a nonnegative n takes the first
n elements, a negative n drops the last -n elements. -/
def pySlice (n : Int) (l : List α) : List α :=
  if 0 ≤ n then l.take n.toNat else l.take (l.length - (-n).toNat)

/-- Rows visible to the flat search queries: WHERE embedding IS NOT NULL. -/
def vecRows (store : List Row) : List Row :=
  store.filter (fun r => r.embedding.isSome)

/-- Flat hit built from a row, as both flat strategies build it. -/
def toHit (q : List ℤ) (r : Row) : SearchHit :=
  ⟨r.id, displayUrl r, r.caption, rowScore q r⟩

/-- Native strategy of search_similar_images: pgvector query ordered by
embedding <=> query (cosine distance ascending, i.e. similarity descending)
with LIMIT, similarity reported as 1 - distance = cosine similarity.
A negative LIMIT is a Postgres error and is outside the model. -/
def searchNative (store : List Row) (q : List ℤ) (lim : Int) : List SearchHit :=
  (List.insertionSort hitLe ((vecRows store).map (toHit q))).take lim.toNat

/-- Brute-force strategy of search_similar_images: scan rows with an
embedding; a stored vector of zero norm is skipped (continue), a stored
vector whose length differs from the query's makes numpy.dot raise and the
except-branch skips the row; survivors are scored by dot of the normalized
vectors, sorted by similarity descending (Python sort, stable) and cut to
similarities[:limit]. -/
def searchFallback (store : List Row) (q : List ℤ) (lim : Int) : List SearchHit :=
  pySlice lim (List.insertionSort hitLe
    ((vecRows store).filterMap (fun r =>
      match r.embedding with
      | none => none
      | some v =>
        if normSq v = 0 then none
        else if v.length = q.length then some (toHit q r) else none)))

/-- search_similar_images of src/app/database.py: normalize the query
(returning [] on a zero query), then use the pgvector strategy when the
vector extension exists, else the brute-force strategy. -/
def search_similar_images (hasVector : Bool) (store : List Row) (q : List ℤ)
    (lim : Int) : List SearchHit :=
  if normSq q = 0 then []
  else if hasVector then searchNative store q lim else searchFallback store q lim

/-- Rows visible to the grouped queries:
WHERE embedding IS NOT NULL AND creator_username IS NOT NULL. -/
def groupRows (store : List Row) : List Row :=
  store.filter (fun r => r.embedding.isSome && r.creatorUsername.isSome)

/-- Grouped entry built from a row of creator c, as both grouped strategies
build it. -/
def toMatch (q : List ℤ) (c : String) (r : Row) : CreatorMatch :=
  ⟨c, r.id, r.mediaId, r.url, r.caption, r.width, r.height, r.mediaUrl,
    rowScore q r⟩

/-- One step of the best-row-per-creator selection: keep the accumulator
unless the row belongs to creator c and strictly improves on it. -/
def bestStep (q : List ℤ) (c : String) (acc : Option Row) (r : Row) :
    Option Row :=
  if r.creatorUsername = some c then
    match acc with
    | none => some r
    | some b => if Score.lt (rowScore q b) (rowScore q r) then some r else acc
  else acc

/-- First row of l belonging to creator c achieving the maximal similarity
to q (replacement only on strict improvement, so the earliest maximiser
wins): the row the DISTINCT ON query keeps for creator c under the model's
tie rule. -/
def bestRowIn (l : List Row) (q : List ℤ) (c : String) : Option Row :=
  l.foldl (bestStep q c) none

/-- Creator usernames of the grouped rows, in table-scan order. -/
def groupOwners (store : List Row) : List String :=
  (groupRows store).filterMap Row.creatorUsername

/-- Native strategy of search_similar_images_by_creator, before the final
Python sort: the DISTINCT ON query returns one row per distinct creator,
ordered by creator_username ascending, each row being the creator's best
match. -/
def nativeGroupedRaw (store : List Row) (q : List ℤ) : List CreatorMatch :=
  (List.insertionSort strLe (groupOwners store).dedup).filterMap
    (fun c => (bestRowIn (groupRows store) q c).map (toMatch q c))

/-- Native strategy of search_similar_images_by_creator: the DISTINCT ON
rows, then results.sort(key=similarity_score, reverse=True). -/
def nativeGrouped (store : List Row) (q : List ℤ) : List CreatorMatch :=
  List.insertionSort matchLe (nativeGroupedRaw store q)

/-- One step of the brute-force grouped scan: for a row with creator c, skip
it if its vector has zero norm (continue) or a length differing from the
query's (numpy.dot raises, except-branch continues); otherwise insert it
into the creator_best dict if c is unseen, or replace c's entry if the new
similarity is strictly greater (first seen wins ties). -/
def stepGrouped (q : List ℤ) (m : List (String × CreatorMatch)) (r : Row) :
    List (String × CreatorMatch) :=
  match r.creatorUsername, r.embedding with
  | some c, some v =>
    if normSq v = 0 then m
    else if v.length = q.length then
      match (m.find? (fun p => p.1 = c)).map Prod.snd with
      | none => m ++ [(c, toMatch q c r)]
      | some old =>
        if Score.lt old.score (rowScore q r) then
          m.map (fun p => if p.1 = c then (c, toMatch q c r) else p)
        else m
    else m
  | _, _ => m

/-- Brute-force strategy of search_similar_images_by_creator: fold the
grouped rows through the creator_best dict (a Python dict keeps insertion
order; assigning to an existing key keeps its position), take the values,
and sort them by similarity_score descending (Python sort, stable). -/
def fallbackGrouped (store : List Row) (q : List ℤ) : List CreatorMatch :=
  List.insertionSort matchLe
    (((groupRows store).foldl (stepGrouped q) []).map Prod.snd)

/-- search_similar_images_by_creator of src/app/database.py: normalize the
query (returning [] on a zero query), then the DISTINCT ON strategy when the
vector extension exists, else the scan-and-reduce strategy. -/
def search_similar_images_by_creator (hasVector : Bool) (store : List Row)
    (q : List ℤ) : List CreatorMatch :=
  if normSq q = 0 then []
  else if hasVector then nativeGrouped store q else fallbackGrouped store q

/-- Creator-username resolution in insert_image_row: when the passed
creator_username is falsy (None or the empty string), the first truthy
hashtag starting with an at-sign supplies it, with the at-sign stripped;
otherwise it is left as passed. -/
def resolveCreator (cu : Option String) (hashtags : List String) :
    Option String :=
  if cu = none ∨ cu = some ("") then
    match hashtags.find? (fun t => !t.isEmpty && t.startsWith ("@")) with
    | some t => some (t.drop 1)
    | none => cu
  else cu

/-- The ON CONFLICT (source, source_id) arbiter: a stored row conflicts with
the incoming (source, sourceId) iff both parts match and sourceId is not
NULL (SQL NULLs never compare equal, so NULL source_id rows never
conflict). -/
def keyConflict (source : String) (sourceId : Option String) (r : Row) : Bool :=
  r.source == source && r.sourceId == sourceId && sourceId.isSome

/-- insert_image_row of src/app/image_processing.py: INSERT a fresh row
(with a newly generated id) or, on a (source, source_id) conflict, UPDATE
the stored row SET embedding, width, height, caption, media_id,
creator_username, media_type, media_url to the incoming values.  The id,
url and hashtags columns of the conflicting row are not in the SET list and
keep their stored values. -/
def insert_image_row (store : List Row) (newId : Nat) (source : String)
    (sourceId : Option String) (url : String) (hashtags : List String)
    (width height : Option Int) (embedding : List ℤ)
    (caption mediaId creatorUsername mediaType mediaUrl : Option String) :
    List Row :=
  let cu := resolveCreator creatorUsername hashtags
  if store.any (keyConflict source sourceId) then
    store.map (fun r =>
      if keyConflict source sourceId r then
        { r with
          embedding := some embedding
          width := width
          height := height
          caption := caption
          mediaId := mediaId
          creatorUsername := cu
          mediaType := mediaType
          mediaUrl := mediaUrl }
      else r)
  else
    store ++ [⟨newId, source, sourceId, some url, hashtags, width, height,
      some embedding, caption, mediaId, cu, mediaType, mediaUrl⟩]

/-- One entry of the legacy upload search of src/app/app.py: image id and
the reported cosine_similarity value, which that code computes as
1 - (embedding <#> query).  The pgvector <#> operator is the NEGATIVE inner
product, so the value is 1 + dot(embedding, query), an exact value for
the already-normalized query produced by image_to_embedding. -/
structure UploadHit where
  imageId : Nat
  score : ℤ
deriving DecidableEq

/-- Ordering of legacy upload hits: ORDER BY embedding <#> query ascending
is inner product descending, i.e. reported score descending. -/
def uploadLe (a b : UploadHit) : Prop :=
  b.score ≤ a.score

instance : DecidableRel uploadLe := fun a b =>
  inferInstanceAs (Decidable (b.score ≤ a.score))

/-- search_by_upload of src/app/app.py (the legacy monolith): every row of
the images table (no WHERE clause), scored 1 - (embedding <#> query)
= 1 + dot, ordered by <#> ascending, LIMIT top_k. -/
def search_by_upload (store : List Row) (q : List ℤ) (topK : Nat) :
    List UploadHit :=
  (List.insertionSort uploadLe
    (store.map (fun r => ⟨r.id, 1 + dotList (r.embedding.getD []) q⟩))).take topK

/-- A row the brute-force grouped scan actually scores: it has a creator and
an embedding, the embedding has nonzero norm (else continue) and its length
matches the query's (else numpy.dot raises and the except-branch
continues). -/
def usableB (q : List ℤ) (r : Row) : Bool :=
  match r.creatorUsername, r.embedding with
  | some _, some v => !(normSq v == 0) && (v.length == q.length)
  | _, _ => false

/-- Concrete row builder for the concrete instances appearing in witnesses
and counterexamples: an ingested row with the given id, creator and
embedding. -/
def sampleRow (i : Nat) (c : Option String) (v : List ℤ) : Row :=
  ⟨i, ("instagram"), some (toString i), some ("permalink"), [], none, none,
    some v, none, none, c, none, none⟩

/-- The rows the brute-force grouped scan actually processes. -/
def uRows (store : List Row) (q : List ℤ) : List Row :=
  (groupRows store).filter (usableB q)

/-- Final state of the creator_best dict after the brute-force grouped
scan. -/
def groupedDict (store : List Row) (q : List ℤ) :
    List (String × CreatorMatch) :=
  (uRows store q).foldl (stepGrouped q) []

/-- Rows whose persisted embedding does NOT have zero norm (rows without an
embedding are kept: they are handled by the IS NOT NULL filters instead). -/
def keepNonzeroEmb (r : Row) : Bool :=
  match r.embedding with
  | some v => !(normSq v == 0)
  | none => true

/-! ## Order properties of exact scores -/

/-- Score.le is reflexive. -/
theorem scoreLe_refl (s : Score) : Score.le s s := by
  unfold Score.le
  rcases le_or_lt s.num 0 with h | h
  · exact Or.inl ⟨h, Or.inr le_rfl⟩
  · exact Or.inr ⟨h, h, le_rfl⟩

/-- Score.le is total. -/
theorem scoreLe_total (s t : Score) : Score.le s t ∨ Score.le t s := by
  unfold Score.le
  rcases le_or_lt s.num 0 with hs | hs <;> rcases le_or_lt t.num 0 with ht | ht
  · rcases le_total (t.num ^ 2 * s.den2) (s.num ^ 2 * t.den2) with h | h
    · exact Or.inl (Or.inl ⟨hs, Or.inr h⟩)
    · exact Or.inr (Or.inl ⟨ht, Or.inr h⟩)
  · exact Or.inl (Or.inl ⟨hs, Or.inl ht.le⟩)
  · exact Or.inr (Or.inl ⟨ht, Or.inl hs.le⟩)
  · rcases le_total (s.num ^ 2 * t.den2) (t.num ^ 2 * s.den2) with h | h
    · exact Or.inl (Or.inr ⟨hs, ht, h⟩)
    · exact Or.inr (Or.inr ⟨ht, hs, h⟩)

/-- Score.le is transitive on scores with a positive den2 (scores whose real
value is defined; a zero den2 is the NaN case and is excluded). -/
theorem scoreLe_trans {s t u : Score} (hs : 0 < s.den2) (ht : 0 < t.den2)
    (hu : 0 < u.den2) (h1 : Score.le s t) (h2 : Score.le t u) :
    Score.le s u := by
  unfold Score.le at h1 h2 ⊢
  rcases h1 with ⟨ha, h1r⟩ | ⟨ha, hb, h1r⟩
  · rcases h2 with ⟨hb, h2r⟩ | ⟨hb, hc, h2r⟩
    · refine Or.inl ⟨ha, ?_⟩
      rcases h2r with hc | h2c
      · exact Or.inl hc
      · rcases h1r with hb0 | h1b
        · have hbz : t.num = 0 := le_antisymm hb hb0
          rw [hbz] at h2c
          have hc2 : u.num ^ 2 ≤ 0 := by nlinarith
          have hc0 : u.num ^ 2 = 0 := le_antisymm hc2 (sq_nonneg u.num)
          have hcz : u.num = 0 := sq_eq_zero_iff.1 hc0
          exact Or.inl (le_of_eq hcz.symm)
        · refine Or.inr ?_
          have k1 : u.num ^ 2 * t.den2 * s.den2 ≤ t.num ^ 2 * u.den2 * s.den2 :=
            mul_le_mul_of_nonneg_right h2c hs.le
          have k2 : t.num ^ 2 * s.den2 * u.den2 ≤ s.num ^ 2 * t.den2 * u.den2 :=
            mul_le_mul_of_nonneg_right h1b hu.le
          nlinarith
    · exact Or.inl ⟨ha, Or.inl hc.le⟩
  · rcases h2 with ⟨hb2, h2r⟩ | ⟨hb2, hc, h2r⟩
    · exact absurd hb (not_lt.2 hb2)
    · refine Or.inr ⟨ha, hc, ?_⟩
      have k1 : s.num ^ 2 * t.den2 * u.den2 ≤ t.num ^ 2 * s.den2 * u.den2 :=
        mul_le_mul_of_nonneg_right h1r hu.le
      have k2 : t.num ^ 2 * u.den2 * s.den2 ≤ u.num ^ 2 * t.den2 * s.den2 :=
        mul_le_mul_of_nonneg_right h2r hs.le
      nlinarith

/-! ## Real-number semantics of Score: the squaring-based order and bound
really denote the order and [-1, 1] range of num / sqrt den2 over ℝ. -/

/-- Square comparison on nonnegative reals. -/
theorem le_of_sq_le_sq_nn {u w : ℝ} (hu : 0 ≤ u) (hw : 0 ≤ w)
    (h : u ^ 2 ≤ w ^ 2) : u ≤ w := by
  rw [← Real.sqrt_sq hu, ← Real.sqrt_sq hw]
  exact Real.sqrt_le_sqrt h

/-- Square comparison on nonpositive reals (order reverses). -/
theorem le_of_sq_le_sq_np {u w : ℝ} (hu : u ≤ 0) (hw : w ≤ 0)
    (h : w ^ 2 ≤ u ^ 2) : u ≤ w := by
  have h2 : -w ≤ -u := by
    refine le_of_sq_le_sq_nn (by linarith) (by linarith) ?_
    calc (-w) ^ 2 = w ^ 2 := by ring
      _ ≤ u ^ 2 := h
      _ = (-u) ^ 2 := by ring
  linarith

/-- Score.le denotes the real order: on scores with positive den2 (the real
value num / sqrt den2 is defined), Score.le s t holds exactly when the real
value of s is at most the real value of t.  This ties the decidable
sign-and-square comparison used throughout back to the cosine similarity
order of the source. -/
theorem scoreLe_iff_real (s t : Score) (hs : 0 < s.den2) (ht : 0 < t.den2) :
    Score.le s t ↔
      (s.num : ℝ) / Real.sqrt (s.den2 : ℝ) ≤
        (t.num : ℝ) / Real.sqrt (t.den2 : ℝ) := by
  have hx : (0 : ℝ) < (s.den2 : ℝ) := by exact_mod_cast hs
  have hy : (0 : ℝ) < (t.den2 : ℝ) := by exact_mod_cast ht
  have hdx : 0 < Real.sqrt (s.den2 : ℝ) := Real.sqrt_pos.2 hx
  have hdy : 0 < Real.sqrt (t.den2 : ℝ) := Real.sqrt_pos.2 hy
  have hx2 : Real.sqrt (s.den2 : ℝ) ^ 2 = (s.den2 : ℝ) := Real.sq_sqrt hx.le
  have hy2 : Real.sqrt (t.den2 : ℝ) ^ 2 = (t.den2 : ℝ) := Real.sq_sqrt hy.le
  rw [div_le_div_iff₀ hdx hdy]
  unfold Score.le
  rcases le_or_lt s.num 0 with ha | ha
  · have haR : (s.num : ℝ) ≤ 0 := by exact_mod_cast ha
    rcases le_or_lt 0 t.num with hb | hb
    · have hbR : (0 : ℝ) ≤ (t.num : ℝ) := by exact_mod_cast hb
      constructor
      · intro _
        calc (s.num : ℝ) * Real.sqrt (t.den2 : ℝ)
            ≤ 0 := mul_nonpos_of_nonpos_of_nonneg haR hdy.le
          _ ≤ (t.num : ℝ) * Real.sqrt (s.den2 : ℝ) := mul_nonneg hbR hdx.le
      · intro _
        exact Or.inl ⟨ha, Or.inl hb⟩
    · have hbR : (t.num : ℝ) < 0 := by exact_mod_cast hb
      have huR : (s.num : ℝ) * Real.sqrt (t.den2 : ℝ) ≤ 0 :=
        mul_nonpos_of_nonpos_of_nonneg haR hdy.le
      have hwR : (t.num : ℝ) * Real.sqrt (s.den2 : ℝ) ≤ 0 :=
        (mul_neg_of_neg_of_pos hbR hdx).le
      have hsqu : ((s.num : ℝ) * Real.sqrt (t.den2 : ℝ)) ^ 2
          = (s.num : ℝ) ^ 2 * (t.den2 : ℝ) := by rw [mul_pow, hy2]
      have hsqw : ((t.num : ℝ) * Real.sqrt (s.den2 : ℝ)) ^ 2
          = (t.num : ℝ) ^ 2 * (s.den2 : ℝ) := by rw [mul_pow, hx2]
      constructor
      · rintro (⟨_, hX⟩ | ⟨hpos, _⟩)
        · rcases hX with hb0 | hX
          · exact absurd hb0 (not_le.2 hb)
          · have hXR : (t.num : ℝ) ^ 2 * (s.den2 : ℝ)
                ≤ (s.num : ℝ) ^ 2 * (t.den2 : ℝ) := by exact_mod_cast hX
            refine le_of_sq_le_sq_np huR hwR ?_
            rw [hsqu, hsqw]
            exact hXR
        · exact absurd hpos (not_lt.2 ha)
      · intro hR
        refine Or.inl ⟨ha, Or.inr ?_⟩
        have h1 : -((t.num : ℝ) * Real.sqrt (s.den2 : ℝ))
            ≤ -((s.num : ℝ) * Real.sqrt (t.den2 : ℝ)) := by linarith
        have h2 : (-((t.num : ℝ) * Real.sqrt (s.den2 : ℝ))) ^ 2
            ≤ (-((s.num : ℝ) * Real.sqrt (t.den2 : ℝ))) ^ 2 :=
          pow_le_pow_left₀ (by linarith) h1 2
        have h3 : (t.num : ℝ) ^ 2 * (s.den2 : ℝ)
            ≤ (s.num : ℝ) ^ 2 * (t.den2 : ℝ) := by
          calc (t.num : ℝ) ^ 2 * (s.den2 : ℝ)
              = (-((t.num : ℝ) * Real.sqrt (s.den2 : ℝ))) ^ 2 := by
                rw [neg_pow]; rw [mul_pow, hx2]; ring
            _ ≤ (-((s.num : ℝ) * Real.sqrt (t.den2 : ℝ))) ^ 2 := h2
            _ = (s.num : ℝ) ^ 2 * (t.den2 : ℝ) := by
                rw [neg_pow]; rw [mul_pow, hy2]; ring
        exact_mod_cast h3
  · have haR : (0 : ℝ) < (s.num : ℝ) := by exact_mod_cast ha
    rcases le_or_lt t.num 0 with hb | hb
    · have hbR : (t.num : ℝ) ≤ 0 := by exact_mod_cast hb
      constructor
      · rintro (⟨h0, _⟩ | ⟨_, hpos, _⟩)
        · exact absurd h0 (not_le.2 ha)
        · exact absurd hpos (not_lt.2 hb)
      · intro hR
        exfalso
        have h1 : (t.num : ℝ) * Real.sqrt (s.den2 : ℝ) ≤ 0 :=
          mul_nonpos_of_nonpos_of_nonneg hbR hdx.le
        have h2 : 0 < (s.num : ℝ) * Real.sqrt (t.den2 : ℝ) :=
          mul_pos haR hdy
        linarith
    · have hbR : (0 : ℝ) < (t.num : ℝ) := by exact_mod_cast hb
      have huR : 0 ≤ (s.num : ℝ) * Real.sqrt (t.den2 : ℝ) :=
        (mul_pos haR hdy).le
      have hwR : 0 ≤ (t.num : ℝ) * Real.sqrt (s.den2 : ℝ) :=
        (mul_pos hbR hdx).le
      constructor
      · rintro (⟨h0, _⟩ | ⟨_, _, hX⟩)
        · exact absurd h0 (not_le.2 ha)
        · have hXR : (s.num : ℝ) ^ 2 * (t.den2 : ℝ)
              ≤ (t.num : ℝ) ^ 2 * (s.den2 : ℝ) := by exact_mod_cast hX
          refine le_of_sq_le_sq_nn huR hwR ?_
          rw [mul_pow, mul_pow, hx2, hy2]
          exact hXR
      · intro hR
        refine Or.inr ⟨ha, hb, ?_⟩
        have h2 : ((s.num : ℝ) * Real.sqrt (t.den2 : ℝ)) ^ 2
            ≤ ((t.num : ℝ) * Real.sqrt (s.den2 : ℝ)) ^ 2 :=
          pow_le_pow_left₀ huR hR 2
        rw [mul_pow, mul_pow, hx2, hy2] at h2
        exact_mod_cast h2

/-- The integer bound num ^ 2 ≤ den2 used in the range claim denotes exactly
the real statement that num / sqrt den2 lies in [-1, 1] (for positive
den2). -/
theorem score_bound_iff_real (s : Score) (hd : 0 < s.den2) :
    s.num ^ 2 ≤ s.den2 ↔
      (-1 ≤ (s.num : ℝ) / Real.sqrt (s.den2 : ℝ) ∧
        (s.num : ℝ) / Real.sqrt (s.den2 : ℝ) ≤ 1) := by
  have hx : (0 : ℝ) < (s.den2 : ℝ) := by exact_mod_cast hd
  have hdx : 0 < Real.sqrt (s.den2 : ℝ) := Real.sqrt_pos.2 hx
  constructor
  · intro h
    have habs : |(s.num : ℝ)| ≤ Real.sqrt (s.den2 : ℝ) := by
      rw [← Real.sqrt_sq_eq_abs]
      refine Real.sqrt_le_sqrt ?_
      exact_mod_cast h
    constructor
    · rw [le_div_iff₀ hdx]
      have h1 : -|(s.num : ℝ)| ≤ (s.num : ℝ) := neg_abs_le _
      linarith
    · rw [div_le_one hdx]
      exact le_of_abs_le habs
  · rintro ⟨h1, h2⟩
    have habs : |(s.num : ℝ)| ≤ Real.sqrt (s.den2 : ℝ) := by
      rw [abs_le]
      constructor
      · rw [le_div_iff₀ hdx] at h1
        linarith
      · rw [div_le_one hdx] at h2
        exact h2
    have hsq : (s.num : ℝ) ^ 2 ≤ (s.den2 : ℝ) := by
      calc (s.num : ℝ) ^ 2 = |(s.num : ℝ)| ^ 2 := (sq_abs _).symm
        _ ≤ Real.sqrt (s.den2 : ℝ) ^ 2 :=
            pow_le_pow_left₀ (abs_nonneg _) habs 2
        _ = (s.den2 : ℝ) := Real.sq_sqrt hx.le
    exact_mod_cast hsq

/-! ## Stable sort infrastructure: a total comparison yields a descending
chain, and with transitivity on the elements in play a pairwise order. -/

/-- Inserting into a chain with a total comparison keeps it a chain. -/
theorem chain'_orderedInsert {α : Type} (r : α → α → Prop) [DecidableRel r]
    (htot : ∀ a b, r a b ∨ r b a) (a : α) :
    ∀ l : List α, List.Chain' r l → List.Chain' r (List.orderedInsert r a l) := by
  intro l
  induction l with
  | nil =>
    intro _
    simp [List.orderedInsert]
  | cons b l ih =>
    intro hc
    rw [List.orderedInsert]
    by_cases h : r a b
    · rw [if_pos h]
      exact List.chain'_cons.2 ⟨h, hc⟩
    · rw [if_neg h]
      have hba : r b a := (htot a b).resolve_left h
      have hrec := ih (List.Chain'.tail hc)
      cases l with
      | nil =>
        simpa [List.orderedInsert] using hba
      | cons c l2 =>
        rw [List.orderedInsert] at hrec ⊢
        by_cases h2 : r a c
        · rw [if_pos h2] at hrec ⊢
          exact List.chain'_cons.2 ⟨hba, hrec⟩
        · rw [if_neg h2] at hrec ⊢
          exact List.chain'_cons.2 ⟨(List.chain'_cons.1 hc).1, hrec⟩

/-- Insertion sort with a total comparison produces a chain: every adjacent
pair of the output is related. -/
theorem chain'_insertionSort {α : Type} (r : α → α → Prop) [DecidableRel r]
    (htot : ∀ a b, r a b ∨ r b a) :
    ∀ l : List α, List.Chain' r (List.insertionSort r l) := by
  intro l
  induction l with
  | nil => simp
  | cons a l ih =>
    rw [List.insertionSort]
    exact chain'_orderedInsert r htot a _ ih

/-- From a chain whose elements all satisfy P, with transitivity available on
P-elements, the head is related to every later element. -/
theorem chain'_head_rel {α : Type} {r : α → α → Prop} {P : α → Prop}
    (htr : ∀ a b c, P a → P b → P c → r a b → r b c → r a c) :
    ∀ (l : List α) (a : α), (∀ x ∈ a :: l, P x) → List.Chain' r (a :: l) →
      ∀ b ∈ l, r a b := by
  intro l
  induction l with
  | nil =>
    intro a _ _ b hb
    cases hb
  | cons c l2 ih =>
    intro a hP hc b hb
    have hac : r a c := (List.chain'_cons.1 hc).1
    rcases List.mem_cons.1 hb with rfl | hb2
    · exact hac
    · have hcb : r c b :=
        ih c (fun x hx => hP x (List.mem_cons_of_mem a hx))
          (List.chain'_cons.1 hc).2 b hb2
      exact htr a c b (hP a (List.mem_cons_self a _))
        (hP c (List.mem_cons_of_mem a (List.mem_cons_self c _)))
        (hP b (List.mem_cons_of_mem a hb)) hac hcb

/-- A chain whose elements all satisfy P is pairwise ordered when
transitivity holds on P-elements. -/
theorem pairwise_of_chain' {α : Type} {r : α → α → Prop} {P : α → Prop}
    (htr : ∀ a b c, P a → P b → P c → r a b → r b c → r a c) :
    ∀ l : List α, (∀ x ∈ l, P x) → List.Chain' r l → List.Pairwise r l := by
  intro l
  induction l with
  | nil =>
    intro _ _
    exact List.Pairwise.nil
  | cons a l ih =>
    intro hP hc
    refine List.Pairwise.cons ?_ ?_
    · exact chain'_head_rel htr l a hP hc
    · exact ih (fun x hx => hP x (List.mem_cons_of_mem a hx)) (List.Chain'.tail hc)

/-! ## Association-list lemmas for the creator_best dict -/

/-- Lookup by key succeeds exactly for the stored keys. -/
theorem findKey_isSome_iff (m : List (String × CreatorMatch)) (c : String) :
    (m.find? (fun p => p.1 = c)).isSome ↔ c ∈ m.map Prod.fst := by
  rw [List.find?_isSome]
  constructor
  · rintro ⟨x, hx, hpx⟩
    exact List.mem_map.2 ⟨x, hx, by simpa using hpx⟩
  · intro h
    obtain ⟨x, hx, rfl⟩ := List.mem_map.1 h
    exact ⟨x, hx, by simp⟩

/-- Lookup by key fails exactly for absent keys. -/
theorem findKey_eq_none_iff (m : List (String × CreatorMatch)) (c : String) :
    m.find? (fun p => p.1 = c) = none ↔ c ∉ m.map Prod.fst := by
  constructor
  · intro h hmem
    have hs := (findKey_isSome_iff m c).2 hmem
    rw [h] at hs
    simp at hs
  · intro h
    cases hf : m.find? (fun p => p.1 = c) with
    | none => rfl
    | some x =>
      exact absurd ((findKey_isSome_iff m c).1 (by simp [hf])) h

/-- Replacing the value at key c keeps the key list unchanged. -/
theorem replace_keys (m : List (String × CreatorMatch)) (c : String)
    (e : CreatorMatch) :
    (m.map (fun p => if p.1 = c then (c, e) else p)).map Prod.fst
      = m.map Prod.fst := by
  rw [List.map_map]
  have hfun : (Prod.fst ∘ fun p : String × CreatorMatch =>
      if p.1 = c then (c, e) else p) = Prod.fst := by
    funext p
    by_cases hp : p.1 = c <;> simp [hp]
  rw [hfun]

/-- After replacing at a stored key c, lookup at c yields the new pair. -/
theorem findKey_replace_self (m : List (String × CreatorMatch)) (c : String)
    (e : CreatorMatch) (h : c ∈ m.map Prod.fst) :
    (m.map (fun p => if p.1 = c then (c, e) else p)).find? (fun p => p.1 = c)
      = some (c, e) := by
  rw [List.find?_map]
  have hpred : ((fun p : String × CreatorMatch => (decide (p.1 = c))) ∘
      fun p => if p.1 = c then (c, e) else p)
      = fun p : String × CreatorMatch => decide (p.1 = c) := by
    funext p
    by_cases hp : p.1 = c <;> simp [hp]
  rw [hpred]
  obtain ⟨x, hx⟩ := Option.isSome_iff_exists.1 ((findKey_isSome_iff m c).2 h)
  rw [hx]
  have hxc : x.1 = c := by simpa using List.find?_some hx
  simp [hxc]

/-- Replacing at key c does not affect lookups at other keys. -/
theorem findKey_replace_ne (m : List (String × CreatorMatch)) (c c2 : String)
    (e : CreatorMatch) (hne : c2 ≠ c) :
    (m.map (fun p => if p.1 = c then (c, e) else p)).find? (fun p => p.1 = c2)
      = m.find? (fun p => p.1 = c2) := by
  rw [List.find?_map]
  have hpred : ((fun p : String × CreatorMatch => (decide (p.1 = c2))) ∘
      fun p => if p.1 = c then (c, e) else p)
      = fun p : String × CreatorMatch => decide (p.1 = c2) := by
    funext p
    by_cases hp : p.1 = c <;> simp [hp]
  rw [hpred]
  cases hf : m.find? (fun p : String × CreatorMatch => decide (p.1 = c2)) with
  | none => simp
  | some x =>
    have hxc : x.1 = c2 := by simpa using List.find?_some hf
    have hxnc : ¬ x.1 = c := by rw [hxc]; exact hne
    simp [hxnc]

/-- With distinct keys, the value list of an association list is the key
list looked up pointwise. -/
theorem assoc_snd_eq : ∀ m : List (String × CreatorMatch),
    (m.map Prod.fst).Nodup →
    m.map Prod.snd = (m.map Prod.fst).filterMap
      (fun c => (m.find? (fun p => p.1 = c)).map Prod.snd) := by
  intro m
  induction m with
  | nil => simp
  | cons p m ih =>
    intro hnd
    have hmap : ((p :: m).map Prod.fst) = p.1 :: m.map Prod.fst := by simp
    rw [hmap] at hnd
    have hnotin : p.1 ∉ m.map Prod.fst := (List.nodup_cons.1 hnd).1
    have hnd2 : (m.map Prod.fst).Nodup := (List.nodup_cons.1 hnd).2
    have hhead : ((p :: m).find? (fun x => x.1 = p.1)).map Prod.snd
        = some p.2 := by
      simp [List.find?_cons]
    have htail : ∀ c ∈ m.map Prod.fst,
        ((p :: m).find? (fun x => x.1 = c)).map Prod.snd
          = (m.find? (fun x => x.1 = c)).map Prod.snd := by
      intro c hc
      have hne : ¬ p.1 = c := fun h => hnotin (h ▸ hc)
      simp [List.find?_cons, hne]
    calc (p :: m).map Prod.snd = p.2 :: m.map Prod.snd := by simp
    _ = p.2 :: (m.map Prod.fst).filterMap
          (fun c => (m.find? (fun x => x.1 = c)).map Prod.snd) := by
          rw [ih hnd2]
    _ = p.2 :: (m.map Prod.fst).filterMap
          (fun c => ((p :: m).find? (fun x => x.1 = c)).map Prod.snd) := by
          rw [List.filterMap_congr (fun c hc => (htail c hc).symm)]
    _ = ((p :: m).map Prod.fst).filterMap
          (fun c => ((p :: m).find? (fun x => x.1 = c)).map Prod.snd) := by
          rw [hmap, List.filterMap_cons]
          simp [hhead]

/-! ## Properties of the per-creator best-row selection -/

/-- The step keeps a some-accumulator some. -/
theorem bestStep_isSome (q : List ℤ) (c : String) (acc : Option Row) (r : Row)
    (h : acc.isSome) : (bestStep q c acc r).isSome := by
  unfold bestStep
  cases acc with
  | none => simp at h
  | some b =>
    by_cases hc : r.creatorUsername = some c
    · by_cases hlt : Score.lt (rowScore q b) (rowScore q r) <;> simp [hc, hlt]
    · simp [hc]

/-- The fold keeps a some-accumulator some. -/
theorem foldl_bestStep_isSome (q : List ℤ) (c : String) :
    ∀ (l : List Row) (acc : Option Row), acc.isSome →
      (l.foldl (bestStep q c) acc).isSome := by
  intro l
  induction l with
  | nil => intro acc h; simpa using h
  | cons r l ih =>
    intro acc h
    exact ih (bestStep q c acc r) (bestStep_isSome q c acc r h)

/-- The fold yields a row exactly when the accumulator already held one or
some scanned row belongs to creator c. -/
theorem foldl_bestStep_isSome_iff (q : List ℤ) (c : String) :
    ∀ (l : List Row) (acc : Option Row),
      (l.foldl (bestStep q c) acc).isSome ↔
        acc.isSome ∨ ∃ r ∈ l, r.creatorUsername = some c := by
  intro l
  induction l with
  | nil => intro acc; simp
  | cons r l ih =>
    intro acc
    rw [List.foldl_cons, ih]
    by_cases hc : r.creatorUsername = some c
    · constructor
      · intro _
        exact Or.inr ⟨r, List.mem_cons_self r l, hc⟩
      · intro _
        left
        unfold bestStep
        cases acc with
        | none => simp [hc]
        | some b =>
          by_cases hlt : Score.lt (rowScore q b) (rowScore q r) <;>
            simp [hc, hlt]
    · have hstep : bestStep q c acc r = acc := by
        unfold bestStep
        simp [hc]
      rw [hstep]
      constructor
      · rintro (h | ⟨x, hx, hxc⟩)
        · exact Or.inl h
        · exact Or.inr ⟨x, List.mem_cons_of_mem r hx, hxc⟩
      · rintro (h | ⟨x, hx, hxc⟩)
        · exact Or.inl h
        · rcases List.mem_cons.1 hx with rfl | hx2
          · exact absurd hxc hc
          · exact Or.inr ⟨x, hx2, hxc⟩

/-- A creator has a best row exactly when it owns some visible row. -/
theorem bestRowIn_isSome_iff (l : List Row) (q : List ℤ) (c : String) :
    (bestRowIn l q c).isSome ↔ ∃ r ∈ l, r.creatorUsername = some c := by
  unfold bestRowIn
  rw [foldl_bestStep_isSome_iff]
  simp

/-- Any row produced by the fold comes from the accumulator or from the
scanned list, and belongs to creator c either way (granted for the
accumulator). -/
theorem foldl_bestStep_spec (q : List ℤ) (c : String) :
    ∀ (l : List Row) (acc : Option Row) (b : Row),
      (∀ x, acc = some x → x.creatorUsername = some c) →
      l.foldl (bestStep q c) acc = some b →
      (acc = some b ∨ b ∈ l) ∧ b.creatorUsername = some c := by
  intro l
  induction l with
  | nil =>
    intro acc b hacc h
    simp only [List.foldl_nil] at h
    exact ⟨Or.inl h, hacc b h⟩
  | cons r l ih =>
    intro acc b hacc h
    rw [List.foldl_cons] at h
    have hstep : ∀ x, bestStep q c acc r = some x →
        x.creatorUsername = some c := by
      intro x hx
      by_cases hc : r.creatorUsername = some c
      · cases acc with
        | none =>
          simp [bestStep, hc] at hx
          exact hx ▸ hc
        | some b0 =>
          by_cases hlt : Score.lt (rowScore q b0) (rowScore q r)
          · simp [bestStep, hc, hlt] at hx
            exact hx ▸ hc
          · simp [bestStep, hc, hlt] at hx
            exact hacc x (by rw [hx])
      · simp [bestStep, hc] at hx
        exact hacc x (by rw [hx])
    obtain ⟨hmem, hcreator⟩ := ih (bestStep q c acc r) b hstep h
    refine ⟨?_, hcreator⟩
    rcases hmem with heq | hmem2
    · by_cases hc : r.creatorUsername = some c
      · cases acc with
        | none =>
          simp [bestStep, hc] at heq
          subst heq
          exact Or.inr (List.mem_cons_self r l)
        | some b0 =>
          by_cases hlt : Score.lt (rowScore q b0) (rowScore q r)
          · simp [bestStep, hc, hlt] at heq
            exact Or.inr (heq ▸ List.mem_cons_self r l)
          · simp [bestStep, hc, hlt] at heq
            exact Or.inl (by rw [heq])
      · simp [bestStep, hc] at heq
        exact Or.inl (by rw [heq])
    · exact Or.inr (List.mem_cons_of_mem r hmem2)

/-- The best row for creator c is a visible row of creator c. -/
theorem bestRowIn_spec (l : List Row) (q : List ℤ) (c : String) (b : Row)
    (h : bestRowIn l q c = some b) : b ∈ l ∧ b.creatorUsername = some c := by
  unfold bestRowIn at h
  obtain ⟨hmem, hcreator⟩ :=
    foldl_bestStep_spec q c l none b (fun x hx => by cases hx) h
  rcases hmem with heq | hmem2
  · cases heq
  · exact ⟨hmem2, hcreator⟩

/-! ## Characterization of the brute-force grouped scan -/

/-- Decoding the usability test. -/
theorem usableB_iff (q : List ℤ) (r : Row) :
    usableB q r = true ↔ ∃ c v, r.creatorUsername = some c ∧
      r.embedding = some v ∧ normSq v ≠ 0 ∧ v.length = q.length := by
  unfold usableB
  cases hc : r.creatorUsername with
  | none => simp
  | some c =>
    cases he : r.embedding with
    | none => simp
    | some v =>
      simp only [Bool.and_eq_true, Bool.not_eq_true', beq_eq_false_iff_ne,
        ne_eq, beq_iff_eq]
      constructor
      · rintro ⟨h1, h2⟩
        exact ⟨c, v, rfl, rfl, h1, h2⟩
      · rintro ⟨c2, v2, hc2, hv2, h1, h2⟩
        cases hc2
        cases hv2
        exact ⟨h1, h2⟩

/-- A row failing the usability test leaves the creator_best dict
unchanged. -/
theorem stepGrouped_skip (q : List ℤ) (m : List (String × CreatorMatch))
    (r : Row) (h : usableB q r = false) : stepGrouped q m r = m := by
  unfold stepGrouped usableB at *
  cases hc : r.creatorUsername with
  | none => simp
  | some c =>
    cases he : r.embedding with
    | none => simp
    | some v =>
      rw [hc, he] at h
      simp only [Bool.and_eq_false_iff, Bool.not_eq_false', beq_iff_eq,
        beq_eq_false_iff_ne, ne_eq] at h
      rcases h with h1 | h2
      · simp [h1]
      · by_cases h1 : normSq v = 0
        · simp [h1]
        · simp [h1, h2]

/-- The grouped scan only reacts to usable rows. -/
theorem foldl_stepGrouped_filter (q : List ℤ) :
    ∀ (l : List Row) (m : List (String × CreatorMatch)),
      l.foldl (stepGrouped q) m = (l.filter (usableB q)).foldl (stepGrouped q) m := by
  intro l
  induction l with
  | nil => intro m; rfl
  | cons r l ih =>
    intro m
    rw [List.foldl_cons, List.filter_cons]
    cases h : usableB q r with
    | true =>
      rw [if_pos (by simp), List.foldl_cons]
      exact ih (stepGrouped q m r)
    | false =>
      rw [if_neg (by simp), stepGrouped_skip q m r h]
      exact ih m

/-- bestStep reductions: a row of another creator never changes the
accumulator. -/
theorem bestStep_other (q : List ℤ) (c : String) (acc : Option Row) (r : Row)
    (h : ¬ r.creatorUsername = some c) : bestStep q c acc r = acc := by
  simp [bestStep, h]

/-- bestStep reductions: the first row of creator c becomes the best. -/
theorem bestStep_none (q : List ℤ) (c : String) (r : Row)
    (h : r.creatorUsername = some c) : bestStep q c none r = some r := by
  simp [bestStep, h]

/-- bestStep reductions: a strictly better row of creator c replaces the
best. -/
theorem bestStep_improve (q : List ℤ) (c : String) (b r : Row)
    (h : r.creatorUsername = some c)
    (hlt : Score.lt (rowScore q b) (rowScore q r)) :
    bestStep q c (some b) r = some r := by
  simp [bestStep, h, hlt]

/-- bestStep reductions: a row of creator c that is not strictly better is
ignored (the first maximiser stays). -/
theorem bestStep_keep (q : List ℤ) (c : String) (b r : Row)
    (h : r.creatorUsername = some c)
    (hlt : ¬ Score.lt (rowScore q b) (rowScore q r)) :
    bestStep q c (some b) r = some b := by
  simp [bestStep, h, hlt]

/-- Invariant of the grouped scan over usable rows: the creator_best dict
has distinct keys and, for every creator, holds exactly the entry built from
the best row of the processed prefix. -/
theorem foldGrouped_char (q : List ℤ) :
    ∀ (l proc : List Row) (m : List (String × CreatorMatch)),
      (∀ r ∈ l, usableB q r = true) →
      (m.map Prod.fst).Nodup →
      (∀ c, (m.find? (fun p => p.1 = c)).map Prod.snd
          = (bestRowIn proc q c).map (toMatch q c)) →
      (((l.foldl (stepGrouped q) m).map Prod.fst).Nodup ∧
        ∀ c, ((l.foldl (stepGrouped q) m).find? (fun p => p.1 = c)).map Prod.snd
            = (bestRowIn (proc ++ l) q c).map (toMatch q c)) := by
  intro l
  induction l with
  | nil =>
    intro proc m _ hnd hinv
    simpa using ⟨hnd, hinv⟩
  | cons r l ih =>
    intro proc m hval hnd hinv
    obtain ⟨c0, v, hc0, hv, hnz, hlen⟩ :=
      (usableB_iff q r).1 (hval r (List.mem_cons_self r l))
    rw [List.foldl_cons]
    have hassoc : proc ++ r :: l = (proc ++ [r]) ++ l := by simp
    rw [hassoc]
    have hbest_append : ∀ c, bestRowIn (proc ++ [r]) q c
        = bestStep q c (bestRowIn proc q c) r := by
      intro c
      unfold bestRowIn
      rw [List.foldl_append]
      rfl
    have hother : ∀ c, ¬ c = c0 →
        bestRowIn (proc ++ [r]) q c = bestRowIn proc q c := by
      intro c hc
      rw [hbest_append c]
      refine bestStep_other q c _ r ?_
      rw [hc0]
      intro h
      exact hc (by injection h with h2; exact h2.symm)
    have hstep_eq : stepGrouped q m r =
        (match (m.find? (fun p => p.1 = c0)).map Prod.snd with
         | none => m ++ [(c0, toMatch q c0 r)]
         | some old =>
           if Score.lt old.score (rowScore q r) then
             m.map (fun p => if p.1 = c0 then (c0, toMatch q c0 r) else p)
           else m) := by
      simp only [stepGrouped, hc0, hv]
      rw [if_neg hnz, if_pos hlen]
    rcases hb : bestRowIn proc q c0 with _ | b
    · -- creator c0 unseen so far: the row is appended
      have hfind0 : (m.find? (fun p => p.1 = c0)).map Prod.snd = none := by
        rw [hinv c0, hb]
        rfl
      have hfindnone : m.find? (fun p => p.1 = c0) = none := by
        cases hf : m.find? (fun p => p.1 = c0) with
        | none => rfl
        | some x => rw [hf] at hfind0; simp at hfind0
      have hm2 : stepGrouped q m r = m ++ [(c0, toMatch q c0 r)] := by
        rw [hstep_eq, hfind0]
      rw [hm2]
      refine ih (proc ++ [r]) (m ++ [(c0, toMatch q c0 r)])
        (fun x hx => hval x (List.mem_cons_of_mem r hx)) ?_ ?_
      · rw [List.map_append, List.nodup_append]
        refine ⟨hnd, by simp, ?_⟩
        intro a ha hb2
        simp at hb2
        subst hb2
        exact ((findKey_eq_none_iff m a).1 hfindnone) ha
      · intro c
        by_cases hc : c = c0
        · subst hc
          rw [hbest_append c, hb, bestStep_none q c r hc0]
          rw [List.find?_append, hfindnone]
          simp [List.find?_cons]
        · rw [hother c hc]
          rw [List.find?_append]
          have htail : List.find? (fun p => p.1 = c) [(c0, toMatch q c0 r)]
              = none := by
            have hne : ¬ c0 = c := fun h => hc h.symm
            simp [List.find?_cons, hne]
          have hinvc := hinv c
          cases hf : m.find? (fun p => p.1 = c) with
          | none =>
            rw [hf] at hinvc
            rw [htail]
            simpa using hinvc
          | some x =>
            rw [hf] at hinvc
            simpa [Option.or] using hinvc
    · -- creator c0 already has best row b
      have hfind0 : (m.find? (fun p => p.1 = c0)).map Prod.snd
          = some (toMatch q c0 b) := by
        rw [hinv c0, hb]
        rfl
      have hmem0 : c0 ∈ m.map Prod.fst := by
        refine (findKey_isSome_iff m c0).1 ?_
        cases hf : m.find? (fun p => p.1 = c0) with
        | none => rw [hf] at hfind0; simp at hfind0
        | some x => simp
      have hscore : (toMatch q c0 b).score = rowScore q b := rfl
      by_cases hlt : Score.lt (rowScore q b) (rowScore q r)
      · -- strict improvement: replace in place
        have hm2 : stepGrouped q m r =
            m.map (fun p => if p.1 = c0 then (c0, toMatch q c0 r) else p) := by
          rw [hstep_eq, hfind0]
          simp only [hscore]
          rw [if_pos hlt]
        rw [hm2]
        refine ih (proc ++ [r]) _
          (fun x hx => hval x (List.mem_cons_of_mem r hx)) ?_ ?_
        · rw [replace_keys]
          exact hnd
        · intro c
          by_cases hc : c = c0
          · subst hc
            rw [hbest_append c, hb, bestStep_improve q c b r hc0 hlt]
            rw [findKey_replace_self m c (toMatch q c r) hmem0]
            rfl
          · rw [hother c hc]
            rw [findKey_replace_ne m c0 c (toMatch q c0 r) hc]
            exact hinv c
      · -- no improvement: dict unchanged
        have hm2 : stepGrouped q m r = m := by
          rw [hstep_eq, hfind0]
          simp only [hscore]
          rw [if_neg hlt]
        rw [hm2]
        refine ih (proc ++ [r]) m
          (fun x hx => hval x (List.mem_cons_of_mem r hx)) hnd ?_
        intro c
        by_cases hc : c = c0
        · subst hc
          rw [hbest_append c, hb, bestStep_keep q c b r hc0 hlt, ← hb]
          exact hinv c
        · rw [hother c hc]
          exact hinv c

/-- The brute-force grouped search is the sorted value list of the final
creator_best dict. -/
theorem fallbackGrouped_eq_dict (store : List Row) (q : List ℤ) :
    fallbackGrouped store q
      = List.insertionSort matchLe ((groupedDict store q).map Prod.snd) := by
  unfold fallbackGrouped groupedDict uRows
  rw [foldl_stepGrouped_filter]

/-- Summary of the grouped scan: distinct keys, pointwise lookup equal to
the best row of the processed rows, and key membership equal to creator
ownership among processed rows. -/
theorem groupedDict_char (store : List Row) (q : List ℤ) :
    ((groupedDict store q).map Prod.fst).Nodup ∧
    (∀ c, ((groupedDict store q).find? (fun p => p.1 = c)).map Prod.snd
        = (bestRowIn (uRows store q) q c).map (toMatch q c)) := by
  have hbase : ∀ c : String,
      (List.find? (fun p : String × CreatorMatch => p.1 = c) []).map Prod.snd
        = (bestRowIn ([] : List Row) q c).map (toMatch q c) := by
    intro c
    rfl
  have h := foldGrouped_char q (uRows store q) [] []
    (fun r hr => (List.mem_filter.1 hr).2) (by simp) hbase
  simpa [groupedDict] using h

/-- Value list of the final dict, written through the best-row function. -/
theorem groupedDict_values (store : List Row) (q : List ℤ) :
    (groupedDict store q).map Prod.snd
      = ((groupedDict store q).map Prod.fst).filterMap
          (fun c => (bestRowIn (uRows store q) q c).map (toMatch q c)) := by
  obtain ⟨hnd, hpt⟩ := groupedDict_char store q
  rw [assoc_snd_eq (groupedDict store q) hnd]
  have hfun : (fun c => ((groupedDict store q).find?
        (fun p => p.1 = c)).map Prod.snd)
      = fun c => (bestRowIn (uRows store q) q c).map (toMatch q c) :=
    funext hpt
  rw [hfun]

/-- Keys of the final dict are the creators owning a processed row. -/
theorem groupedDict_keys_mem (store : List Row) (q : List ℤ) (c : String) :
    c ∈ (groupedDict store q).map Prod.fst ↔
      ∃ r ∈ uRows store q, r.creatorUsername = some c := by
  obtain ⟨hnd, hpt⟩ := groupedDict_char store q
  rw [← findKey_isSome_iff]
  rw [← bestRowIn_isSome_iff (uRows store q) q c]
  constructor
  · intro h
    have := hpt c
    cases hf : (groupedDict store q).find? (fun p => p.1 = c) with
    | none => rw [hf] at h; simp at h
    | some x =>
      rw [hf] at this
      cases hbr : bestRowIn (uRows store q) q c with
      | none => rw [hbr] at this; simp at this
      | some b => simp
  · intro h
    have := hpt c
    cases hbr : bestRowIn (uRows store q) q c with
    | none => rw [hbr] at h; simp at h
    | some b =>
      rw [hbr] at this
      cases hf : (groupedDict store q).find? (fun p => p.1 = c) with
      | none => rw [hf] at this; simp at this
      | some x => simp

/-! ## The native DISTINCT ON strategy -/

/-- normSq is a sum of squares. -/
theorem normSq_nonneg (l : List ℤ) : 0 ≤ normSq l := by
  refine List.sum_nonneg ?_
  intro y hy
  obtain ⟨x, _, rfl⟩ := List.mem_map.1 hy
  exact mul_self_nonneg x

/-- A score between vectors of nonzero norm has positive den2: its real
value is defined. -/
theorem mkScore_den2_pos (q v : List ℤ) (hq : normSq q ≠ 0)
    (hv : normSq v ≠ 0) : 0 < (mkScore q v).den2 :=
  mul_pos (lt_of_le_of_ne (normSq_nonneg q) (Ne.symm hq))
    (lt_of_le_of_ne (normSq_nonneg v) (Ne.symm hv))

/-- The distinct creator list of the native strategy: no duplicates. -/
theorem sortedOwners_nodup (store : List Row) :
    (List.insertionSort strLe (groupOwners store).dedup).Nodup :=
  (List.perm_insertionSort strLe (groupOwners store).dedup).nodup_iff.2
    (List.nodup_dedup (groupOwners store))

/-- The distinct creator list of the native strategy: same members as the
creator column of the visible rows. -/
theorem sortedOwners_mem (store : List Row) (c : String) :
    c ∈ List.insertionSort strLe (groupOwners store).dedup ↔
      c ∈ groupOwners store := by
  rw [(List.perm_insertionSort strLe (groupOwners store).dedup).mem_iff]
  exact List.mem_dedup

/-- groupOwners membership is creator ownership of a visible row. -/
theorem groupOwners_mem (store : List Row) (c : String) :
    c ∈ groupOwners store ↔ ∃ r ∈ groupRows store,
      r.creatorUsername = some c := by
  unfold groupOwners
  rw [List.mem_filterMap]

/-- Mapping the creator field over a filterMap that fills in that creator
recovers the key list. -/
theorem filterMap_creator_map :
    ∀ (L : List String) (F : String → Option CreatorMatch),
      (∀ c ∈ L, ∃ e, F c = some e ∧ e.creatorUsername = c) →
      (L.filterMap F).map CreatorMatch.creatorUsername = L := by
  intro L
  induction L with
  | nil => intro F _; rfl
  | cons c L ih =>
    intro F h
    obtain ⟨e, he, hec⟩ := h c (List.mem_cons_self c L)
    rw [List.filterMap_cons, he]
    simp only [List.map_cons, hec]
    rw [ih F (fun x hx => h x (List.mem_cons_of_mem c hx))]

/-- Every entry of the raw native result is the best-row entry of some
creator. -/
theorem mem_nativeGroupedRaw (store : List Row) (q : List ℤ)
    (e : CreatorMatch) (h : e ∈ nativeGroupedRaw store q) :
    ∃ c b, bestRowIn (groupRows store) q c = some b ∧ e = toMatch q c b := by
  unfold nativeGroupedRaw at h
  obtain ⟨c, _, hc⟩ := List.mem_filterMap.1 h
  cases hbr : bestRowIn (groupRows store) q c with
  | none => rw [hbr] at hc; simp at hc
  | some b =>
    rw [hbr] at hc
    simp at hc
    exact ⟨c, b, hbr, hc.symm⟩

/-- The creators of the raw native result are exactly the distinct creator
list. -/
theorem nativeGroupedRaw_creators (store : List Row) (q : List ℤ) :
    (nativeGroupedRaw store q).map CreatorMatch.creatorUsername
      = List.insertionSort strLe (groupOwners store).dedup := by
  unfold nativeGroupedRaw
  refine filterMap_creator_map _ _ ?_
  intro c hc
  have hgm : c ∈ groupOwners store := (sortedOwners_mem store c).1 hc
  have hsome : (bestRowIn (groupRows store) q c).isSome := by
    rw [bestRowIn_isSome_iff]
    exact (groupOwners_mem store c).1 hgm
  obtain ⟨b, hb⟩ := Option.isSome_iff_exists.1 hsome
  exact ⟨toMatch q c b, by rw [hb]; rfl, rfl⟩

/-! ## Equivalence machinery for the two grouped strategies -/

/-- When every visible row is usable, the brute-force scan skips nothing. -/
theorem uRows_eq_groupRows (store : List Row) (q : List ℤ)
    (h : ∀ r ∈ groupRows store, usableB q r = true) :
    uRows store q = groupRows store :=
  List.filter_eq_self.2 h

/-- When every visible row is usable, the value list of the brute-force
dict is a permutation of the raw native result: same creators (scan order
versus username order), and for each creator the same best entry. -/
theorem grouped_raw_perm (store : List Row) (q : List ℤ)
    (h : ∀ r ∈ groupRows store, usableB q r = true) :
    ((groupedDict store q).map Prod.snd).Perm (nativeGroupedRaw store q) := by
  have hu := uRows_eq_groupRows store q h
  rw [groupedDict_values store q, hu]
  unfold nativeGroupedRaw
  refine List.Perm.filterMap _ ?_
  refine (List.perm_ext_iff_of_nodup (groupedDict_char store q).1
    (sortedOwners_nodup store)).2 ?_
  intro c
  rw [groupedDict_keys_mem store q c, hu, sortedOwners_mem, groupOwners_mem]

/-- Entries of the raw native result have defined (positive den2) scores
when the query and all visible embeddings have nonzero norm. -/
theorem nativeGroupedRaw_den2_pos (store : List Row) (q : List ℤ)
    (hq : normSq q ≠ 0) (h : ∀ r ∈ groupRows store, usableB q r = true) :
    ∀ e ∈ nativeGroupedRaw store q, 0 < e.score.den2 := by
  intro e he
  obtain ⟨c, b, hbr, rfl⟩ := mem_nativeGroupedRaw store q e he
  obtain ⟨hbmem, _⟩ := bestRowIn_spec _ q c b hbr
  obtain ⟨c2, v, _, hv, hnz, _⟩ := (usableB_iff q b).1 (h b hbmem)
  have hsc : (toMatch q c b).score = mkScore q v := by
    simp [toMatch, rowScore, hv]
  rw [hsc]
  exact mkScore_den2_pos q v hq hnz

/-- Two permuted entry lists with defined scores and no exact score ties
sort identically under the similarity-descending order. -/
theorem sorted_eq_of_perm (A B : List CreatorMatch) (hperm : A.Perm B)
    (hpos : ∀ e ∈ A, 0 < e.score.den2)
    (hties : A.Pairwise (fun a b =>
      ¬(Score.le a.score b.score ∧ Score.le b.score a.score))) :
    List.insertionSort matchLe A = List.insertionSort matchLe B := by
  have htot : ∀ a b : CreatorMatch, matchLe a b ∨ matchLe b a := by
    intro a b
    exact (scoreLe_total b.score a.score).imp id id
  have htr : ∀ a b c : CreatorMatch, 0 < a.score.den2 → 0 < b.score.den2 →
      0 < c.score.den2 → matchLe a b → matchLe b c → matchLe a c := by
    intro a b c ha hb hc h1 h2
    exact scoreLe_trans hc hb ha h2 h1
  have hsymm : ∀ {a b : CreatorMatch},
      ¬(Score.le a.score b.score ∧ Score.le b.score a.score) →
      ¬(Score.le b.score a.score ∧ Score.le a.score b.score) := by
    intro a b h hab
    exact h ⟨hab.2, hab.1⟩
  have hSA := List.perm_insertionSort matchLe A
  have hSB := List.perm_insertionSort matchLe B
  have hposSA : ∀ e ∈ List.insertionSort matchLe A, 0 < e.score.den2 :=
    fun e he => hpos e (hSA.mem_iff.1 he)
  have hposSB : ∀ e ∈ List.insertionSort matchLe B, 0 < e.score.den2 :=
    fun e he => hpos e ((hSB.trans hperm.symm).mem_iff.1 he)
  have htrP : ∀ a b c : CreatorMatch, 0 < a.score.den2 → 0 < b.score.den2 →
      0 < c.score.den2 → matchLe a b → matchLe b c → matchLe a c := htr
  have hpwA : (List.insertionSort matchLe A).Pairwise matchLe :=
    pairwise_of_chain' (P := fun e => 0 < e.score.den2) htrP _
      hposSA (chain'_insertionSort matchLe htot A)
  have hpwB : (List.insertionSort matchLe B).Pairwise matchLe :=
    pairwise_of_chain' (P := fun e => 0 < e.score.den2) htrP _
      hposSB (chain'_insertionSort matchLe htot B)
  have htiesA : (List.insertionSort matchLe A).Pairwise (fun a b =>
      ¬(Score.le a.score b.score ∧ Score.le b.score a.score)) :=
    (hSA.pairwise_iff (fun h => hsymm h)).2 hties
  have htiesB : (List.insertionSort matchLe B).Pairwise (fun a b =>
      ¬(Score.le a.score b.score ∧ Score.le b.score a.score)) :=
    ((hSB.trans hperm.symm).pairwise_iff (fun h => hsymm h)).2 hties
  have hstrictA : (List.insertionSort matchLe A).Pairwise
      (fun a b => matchLe a b ∧ ¬ matchLe b a) := by
    refine (hpwA.and htiesA).imp ?_
    rintro a b ⟨hle, hne⟩
    exact ⟨hle, fun hba => hne ⟨hba, hle⟩⟩
  have hstrictB : (List.insertionSort matchLe B).Pairwise
      (fun a b => matchLe a b ∧ ¬ matchLe b a) := by
    refine (hpwB.and htiesB).imp ?_
    rintro a b ⟨hle, hne⟩
    exact ⟨hle, fun hba => hne ⟨hba, hle⟩⟩
  haveI : IsAntisymm CreatorMatch (fun a b => matchLe a b ∧ ¬ matchLe b a) :=
    ⟨fun a b h1 h2 => absurd h1.1 h2.2⟩
  exact List.eq_of_perm_of_sorted (hSA.trans (hperm.trans hSB.symm))
    hstrictA hstrictB

/-! ## Zero-norm stored vectors in the brute-force paths -/

/-- Dropping elements that the downstream filterMap ignores anyway does not
change the result. -/
theorem filterMap_filter_drop {α β : Type} (f : α → Option β) (p k : α → Bool)
    (hdrop : ∀ r, k r = false → p r = true → f r = none) :
    ∀ l : List α,
      ((l.filter p).filterMap f) = (((l.filter k).filter p).filterMap f) := by
  intro l
  induction l with
  | nil => rfl
  | cons r l ih =>
    by_cases hk : k r = true
    · by_cases hp : p r = true
      · rw [List.filter_cons, if_pos hp, List.filter_cons, if_pos hk,
          List.filter_cons, if_pos hp, List.filterMap_cons, List.filterMap_cons,
          ih]
      · rw [List.filter_cons, if_neg hp, List.filter_cons, if_pos hk,
          List.filter_cons, if_neg hp, ih]
    · have hk2 : k r = false := by revert hk; cases k r <;> simp
      by_cases hp : p r = true
      · have hf : f r = none := hdrop r hk2 hp
        rw [List.filter_cons, if_pos hp, List.filter_cons, if_neg hk,
          List.filterMap_cons, hf, ih]
      · rw [List.filter_cons, if_neg hp, List.filter_cons, if_neg hk, ih]

/-- Dropping elements that the downstream filter rejects anyway does not
change the result. -/
theorem filter_filter_drop {α : Type} (u g k : α → Bool)
    (hdrop : ∀ r, k r = false → u r = false) :
    ∀ l : List α,
      ((l.filter g).filter u) = (((l.filter k).filter g).filter u) := by
  intro l
  induction l with
  | nil => rfl
  | cons r l ih =>
    by_cases hk : k r = true
    · have h2 : List.filter k (r :: l) = r :: List.filter k l := by
        rw [List.filter_cons, if_pos hk]
      rw [h2]
      by_cases hg : g r = true
      · have h1 : List.filter g (r :: l) = r :: List.filter g l := by
          rw [List.filter_cons, if_pos hg]
        have h3 : List.filter g (r :: List.filter k l)
            = r :: List.filter g (List.filter k l) := by
          rw [List.filter_cons, if_pos hg]
        rw [h1, h3, List.filter_cons, List.filter_cons, ih]
      · have h1 : List.filter g (r :: l) = List.filter g l := by
          rw [List.filter_cons, if_neg hg]
        have h3 : List.filter g (r :: List.filter k l)
            = List.filter g (List.filter k l) := by
          rw [List.filter_cons, if_neg hg]
        rw [h1, h3, ih]
    · have hk2 : k r = false := by revert hk; cases k r <;> simp
      have hu : u r = false := hdrop r hk2
      have h2 : List.filter k (r :: l) = List.filter k l := by
        rw [List.filter_cons, if_neg hk]
      rw [h2]
      by_cases hg : g r = true
      · have h1 : List.filter g (r :: l) = r :: List.filter g l := by
          rw [List.filter_cons, if_pos hg]
        have h4 : List.filter u (r :: List.filter g l)
            = List.filter u (List.filter g l) := by
          rw [List.filter_cons, if_neg (by rw [hu]; simp)]
        rw [h1, h4, ih]
      · have h1 : List.filter g (r :: l) = List.filter g l := by
          rw [List.filter_cons, if_neg hg]
        rw [h1, ih]

/-- A zero-norm persisted embedding makes the row invisible to the grouped
brute-force scan. -/
theorem uRows_skips_zero (store : List Row) (q : List ℤ) :
    uRows store q = uRows (store.filter keepNonzeroEmb) q := by
  unfold uRows groupRows
  refine filter_filter_drop (usableB q) _ keepNonzeroEmb ?_ store
  intro r hk
  unfold keepNonzeroEmb at hk
  unfold usableB
  cases hc : r.creatorUsername <;> cases he : r.embedding <;>
    rw [he] at hk <;> simp at hk ⊢ <;> simp [hk]

/-! ## Claim theorems -/

/-- Claim C6 (confirmed): for a query vector of zero L2 norm, both
search_similar_images and search_similar_images_by_creator return the empty
list without error, under either engine, before any division by the norm is
attempted. -/
theorem c6_zero_query_empty (hv : Bool) (store : List Row) (q : List ℤ)
    (lim : Int) (h : normSq q = 0) :
    search_similar_images hv store q lim = [] ∧
    search_similar_images_by_creator hv store q = [] := by
  unfold search_similar_images search_similar_images_by_creator
  rw [if_pos h, if_pos h]
  exact ⟨rfl, rfl⟩

/-- Witness for C6: the zero vector against a nonempty store. -/
theorem c6_zero_query_empty_witness :
    normSq [(0 : ℤ), 0] = 0 ∧
    (search_similar_images true [sampleRow 1 (some ("a")) [1, 0]]
        [(0 : ℤ), 0] 12 = [] ∧
      search_similar_images_by_creator true [sampleRow 1 (some ("a")) [1, 0]]
        [(0 : ℤ), 0] = []) :=
  ⟨by decide,
    c6_zero_query_empty true [sampleRow 1 (some ("a")) [1, 0]]
      [(0 : ℤ), 0] 12 (by decide)⟩

/-- Claim C10 (confirmed): in the brute-force fallback of both search
operations, a stored record whose persisted embedding has zero L2 norm is
silently skipped: the results over any store equal the results over the
store with all such records removed, so the record never appears in a result
and never becomes an owner's best match, and no error is reported. -/
theorem c10_zero_norm_rows_skipped (store : List Row) (q : List ℤ)
    (lim : Int) :
    search_similar_images false store q lim
      = search_similar_images false (store.filter keepNonzeroEmb) q lim ∧
    search_similar_images_by_creator false store q
      = search_similar_images_by_creator false (store.filter keepNonzeroEmb) q := by
  have hdrop : ∀ r : Row, keepNonzeroEmb r = false →
      (r.embedding.isSome : Bool) = true →
      (match r.embedding with
       | none => none
       | some v =>
         if normSq v = 0 then none
         else if v.length = q.length then some (toHit q r) else none) = none := by
    intro r hk _
    unfold keepNonzeroEmb at hk
    cases he : r.embedding with
    | none => rfl
    | some v =>
      rw [he] at hk
      simp at hk
      simp [hk]
  constructor
  · unfold search_similar_images
    by_cases hq : normSq q = 0
    · rw [if_pos hq, if_pos hq]
    · rw [if_neg hq, if_neg hq]
      show searchFallback store q lim
        = searchFallback (store.filter keepNonzeroEmb) q lim
      unfold searchFallback vecRows
      rw [filterMap_filter_drop _ _ keepNonzeroEmb hdrop store]
  · unfold search_similar_images_by_creator
    by_cases hq : normSq q = 0
    · rw [if_pos hq, if_pos hq]
    · rw [if_neg hq, if_neg hq]
      show fallbackGrouped store q
        = fallbackGrouped (store.filter keepNonzeroEmb) q
      rw [fallbackGrouped_eq_dict, fallbackGrouped_eq_dict]
      unfold groupedDict
      rw [uRows_skips_zero]

/-- Shape of insert_image_row without a key conflict: the new row, with a
freshly generated id, the resolved creator, and every supplied field, is
appended. -/
theorem insert_image_row_fresh (store : List Row) (newId : Nat)
    (source : String) (sourceId : Option String) (url : String)
    (tags : List String) (w h : Option Int) (v : List ℤ)
    (cap mid cu mt mu : Option String)
    (hfresh : ∀ r ∈ store, keyConflict source sourceId r = false) :
    insert_image_row store newId source sourceId url tags w h v cap mid cu mt mu
      = store ++ [⟨newId, source, sourceId, some url, tags, w, h, some v, cap,
          mid, resolveCreator cu tags, mt, mu⟩] := by
  have hany : store.any (keyConflict source sourceId) = false := by
    cases hA : store.any (keyConflict source sourceId) with
    | false => rfl
    | true =>
      obtain ⟨r, hr, hc⟩ := List.any_eq_true.1 hA
      rw [hfresh r hr] at hc
      exact absurd hc (by simp)
  unfold insert_image_row
  rw [if_neg (by rw [hany]; simp)]

/-- Shape of insert_image_row on a key conflict: every conflicting row is
updated in place, setting exactly embedding, width, height, caption,
media_id, creator_username, media_type and media_url. -/
theorem insert_image_row_conflict (store : List Row) (newId : Nat)
    (source : String) (sourceId : Option String) (url : String)
    (tags : List String) (w h : Option Int) (v : List ℤ)
    (cap mid cu mt mu : Option String)
    (hA : store.any (keyConflict source sourceId) = true) :
    insert_image_row store newId source sourceId url tags w h v cap mid cu mt mu
      = store.map (fun r =>
          if keyConflict source sourceId r = true then
            { r with
              embedding := some v
              width := w
              height := h
              caption := cap
              mediaId := mid
              creatorUsername := resolveCreator cu tags
              mediaType := mt
              mediaUrl := mu }
          else r) := by
  unfold insert_image_row
  rw [if_pos hA]

/-- Claim C9 (amended; the original is refuted by c9_counterexample): the
store's upsert never normalizes: every row it writes carries the supplied
vector verbatim, so the persisted vector is unit-length only when the input
already was.  Every row of the post-state is either an untouched pre-state
row or carries exactly the supplied embedding. -/
theorem c9_upsert_stores_vector_verbatim (store : List Row) (newId : Nat)
    (source : String) (sourceId : Option String) (url : String)
    (tags : List String) (w h : Option Int) (v : List ℤ)
    (cap mid cu mt mu : Option String) :
    ∀ r2 ∈ insert_image_row store newId source sourceId url tags w h v cap
        mid cu mt mu, r2 ∈ store ∨ r2.embedding = some v := by
  intro r2 h2
  unfold insert_image_row at h2
  by_cases hA : store.any (keyConflict source sourceId) = true
  · rw [if_pos hA] at h2
    obtain ⟨r, hr, heq⟩ := List.mem_map.1 h2
    by_cases hc : keyConflict source sourceId r = true
    · right
      rw [if_pos hc] at heq
      rw [← heq]
    · left
      rw [if_neg hc] at heq
      rw [← heq]
      exact hr
  · rw [if_neg hA] at h2
    rcases List.mem_append.1 h2 with h3 | h3
    · exact Or.inl h3
    · right
      simp at h3
      rw [h3]

/-- Witness for C9's amended claim: inserting a non-normalized vector into
an empty store. -/
theorem c9_upsert_stores_vector_verbatim_witness :
    ((⟨3, ("s"), some ("x"), some ("u"), [], none, none, some [2, 0], none,
        none, none, none, none⟩ : Row)
      ∈ insert_image_row [] 3 ("s") (some ("x")) ("u") [] none none [2, 0]
          none none none none none) ∧
    ((⟨3, ("s"), some ("x"), some ("u"), [], none, none, some [2, 0], none,
        none, none, none, none⟩ : Row) ∈ ([] : List Row) ∨
      (⟨3, ("s"), some ("x"), some ("u"), [], none, none, some [2, 0], none,
        none, none, none, none⟩ : Row).embedding = some [2, 0]) :=
  ⟨by decide,
    c9_upsert_stores_vector_verbatim [] 3 ("s") (some ("x")) ("u") [] none
      none [2, 0] none none none none none _ (by decide)⟩

/-- Counterexample refuting C9 as stated: upserting the vector (2, 0) leaves
a persisted vector of squared norm 4, far outside the claimed unit-norm
band (1 p/m 1e-4, i.e. squared norm at most (10001/10000)^2). -/
theorem c9_counterexample :
    ((insert_image_row [] 3 ("s") (some ("x")) ("u") [] none none [2, 0]
        none none none none none).map (fun r => r.embedding.map normSq))
      = [some (4 : ℤ)] ∧
    ¬ ((4 : ℤ) * 100000000 ≤ 10001 * 10001) := by decide

/-- Claim C4 (amended; the original is refuted by c4_counterexample): on a
natural-key conflict the stored row's embedding, width, height, caption,
media_id, creator_username (owner), media_type and media_url are replaced by
the incoming values, while id is preserved — but url and hashtags are NOT in
the update list and keep their stored values (as do source and source_id,
the key itself). -/
theorem c4_conflict_update_frame (store : List Row) (newId : Nat)
    (source : String) (sourceId : Option String) (url : String)
    (tags : List String) (w h : Option Int) (v : List ℤ)
    (cap mid cu mt mu : Option String) (r : Row) (hr : r ∈ store)
    (hconf : keyConflict source sourceId r = true) :
    ∃ r2 ∈ insert_image_row store newId source sourceId url tags w h v cap
        mid cu mt mu,
      r2.id = r.id ∧ r2.source = r.source ∧ r2.sourceId = r.sourceId ∧
      r2.url = r.url ∧ r2.hashtags = r.hashtags ∧
      r2.embedding = some v ∧ r2.width = w ∧ r2.height = h ∧
      r2.caption = cap ∧ r2.mediaId = mid ∧
      r2.creatorUsername = resolveCreator cu tags ∧ r2.mediaType = mt ∧
      r2.mediaUrl = mu := by
  have hA : store.any (keyConflict source sourceId) = true :=
    List.any_eq_true.2 ⟨r, hr, hconf⟩
  rw [insert_image_row_conflict store newId source sourceId url tags w h v
    cap mid cu mt mu hA]
  have hmem := List.mem_map_of_mem (fun r : Row =>
    if keyConflict source sourceId r = true then
      ({ r with
        embedding := some v
        width := w
        height := h
        caption := cap
        mediaId := mid
        creatorUsername := resolveCreator cu tags
        mediaType := mt
        mediaUrl := mu } : Row)
    else r) hr
  have hmem2 : ({ r with
      embedding := some v
      width := w
      height := h
      caption := cap
      mediaId := mid
      creatorUsername := resolveCreator cu tags
      mediaType := mt
      mediaUrl := mu } : Row) ∈ store.map (fun r : Row =>
        if keyConflict source sourceId r = true then
          ({ r with
            embedding := some v
            width := w
            height := h
            caption := cap
            mediaId := mid
            creatorUsername := resolveCreator cu tags
            mediaType := mt
            mediaUrl := mu } : Row)
        else r) := by
    simpa [hconf] using hmem
  exact ⟨_, hmem2, rfl, rfl, rfl, rfl, rfl, rfl, rfl, rfl, rfl, rfl, rfl, rfl,
    rfl⟩

/-- Witness for C4's amended claim: a second upsert under the same key. -/
theorem c4_conflict_update_frame_witness :
    ((sampleRow 7 none [1, 0]) ∈ [sampleRow 7 none [1, 0]] ∧
      keyConflict ("instagram") (some ("7")) (sampleRow 7 none [1, 0]) = true) ∧
    (∃ r2 ∈ insert_image_row [sampleRow 7 none [1, 0]] 9 ("instagram")
        (some ("7")) ("u2") [] none none [0, 1] none none none none none,
      r2.id = (sampleRow 7 none [1, 0]).id ∧
      r2.source = (sampleRow 7 none [1, 0]).source ∧
      r2.sourceId = (sampleRow 7 none [1, 0]).sourceId ∧
      r2.url = (sampleRow 7 none [1, 0]).url ∧
      r2.hashtags = (sampleRow 7 none [1, 0]).hashtags ∧
      r2.embedding = some [0, 1] ∧ r2.width = none ∧ r2.height = none ∧
      r2.caption = none ∧ r2.mediaId = none ∧
      r2.creatorUsername = resolveCreator none [] ∧ r2.mediaType = none ∧
      r2.mediaUrl = none) :=
  ⟨⟨by decide, by decide⟩,
    c4_conflict_update_frame [sampleRow 7 none [1, 0]] 9 ("instagram")
      (some ("7")) ("u2") [] none none [0, 1] none none none none none
      (sampleRow 7 none [1, 0]) (by decide) (by decide)⟩

/-- Counterexample refuting C4 as stated: the conflicting upsert supplies a
new permalink url, but the stored row keeps the old one — url (and likewise
hashtags) is not replaced, contradicting that no metadata field keeps its
old value. -/
theorem c4_counterexample :
    ((insert_image_row
        (insert_image_row [] 7 ("s") (some ("x")) ("old") [("#a")] none none
          [1, 0] none none none none none)
        9 ("s") (some ("x")) ("new") [("#b")] none none [2, 0] none none none
          none none).map (fun r => (r.url, r.hashtags)))
      = [(some ("old"), [("#a")])] ∧
    ¬ ((some ("old") : Option String) = some ("new")) := by decide

/-- Claim C3 (confirmed for the operative upsert,
image_processing.insert_image_row; the legacy app.py variant uses ON
CONFLICT DO NOTHING and is not routed by the application): upserting the
same non-null natural key twice with two different vectors leaves exactly
one stored record under that key, carrying the second vector and the id
generated by the first insert. -/
theorem c3_upsert_twice_idempotent (store : List Row) (id1 id2 : Nat)
    (source sid : String) (url1 url2 : String) (tags1 tags2 : List String)
    (w1 h1 w2 h2 : Option Int) (v1 v2 : List ℤ)
    (cap1 mid1 cu1 mt1 mu1 cap2 mid2 cu2 mt2 mu2 : Option String)
    (hfresh : ∀ r ∈ store, keyConflict source (some sid) r = false)
    (hne : v1 ≠ v2) :
    ((insert_image_row
        (insert_image_row store id1 source (some sid) url1 tags1 w1 h1 v1
          cap1 mid1 cu1 mt1 mu1)
        id2 source (some sid) url2 tags2 w2 h2 v2 cap2 mid2 cu2 mt2
          mu2).filter (keyConflict source (some sid))).map
      (fun r => (r.id, r.embedding)) = [(id1, some v2)] := by
  rw [insert_image_row_fresh store id1 source (some sid) url1 tags1 w1 h1 v1
    cap1 mid1 cu1 mt1 mu1 hfresh]
  have hconf1 : keyConflict source (some sid)
      (⟨id1, source, some sid, some url1, tags1, w1, h1, some v1, cap1, mid1,
        resolveCreator cu1 tags1, mt1, mu1⟩ : Row) = true := by
    simp [keyConflict]
  have hA2 : (store ++ [(⟨id1, source, some sid, some url1, tags1, w1, h1,
      some v1, cap1, mid1, resolveCreator cu1 tags1, mt1, mu1⟩ : Row)]).any
      (keyConflict source (some sid)) = true :=
    List.any_eq_true.2 ⟨_, by simp, hconf1⟩
  rw [insert_image_row_conflict _ id2 source (some sid) url2 tags2 w2 h2 v2
    cap2 mid2 cu2 mt2 mu2 hA2]
  rw [List.map_append]
  have hmapstore : store.map (fun r : Row =>
      if keyConflict source (some sid) r = true then
        ({ r with
          embedding := some v2
          width := w2
          height := h2
          caption := cap2
          mediaId := mid2
          creatorUsername := resolveCreator cu2 tags2
          mediaType := mt2
          mediaUrl := mu2 } : Row)
      else r) = store := by
    calc store.map (fun r : Row =>
        if keyConflict source (some sid) r = true then
          ({ r with
            embedding := some v2
            width := w2
            height := h2
            caption := cap2
            mediaId := mid2
            creatorUsername := resolveCreator cu2 tags2
            mediaType := mt2
            mediaUrl := mu2 } : Row)
        else r) = store.map id := by
          refine List.map_congr_left ?_
          intro r hr
          rw [if_neg (by rw [hfresh r hr]; simp)]
          rfl
    _ = store := List.map_id store
  rw [hmapstore]
  rw [List.filter_append]
  have hfilterstore : store.filter (keyConflict source (some sid)) = [] := by
    rw [List.filter_eq_nil_iff]
    intro r hr
    rw [hfresh r hr]
    simp
  rw [hfilterstore]
  simp only [List.map_cons, List.map_nil, List.nil_append]
  rw [if_pos hconf1]
  simp [List.filter_cons, keyConflict]

/-- Witness for C3: two inserts of the key (instagram, 42) into the empty
store, first with vector (1, 0), then with (0, 1). -/
theorem c3_upsert_twice_idempotent_witness :
    ((∀ r ∈ ([] : List Row), keyConflict ("instagram") (some ("42")) r = false) ∧
      ([ (1 : ℤ), 0 ] ≠ [ (0 : ℤ), 1 ])) ∧
    ((insert_image_row
        (insert_image_row [] 7 ("instagram") (some ("42")) ("u1") [] none none
          [1, 0] none none none none none)
        9 ("instagram") (some ("42")) ("u2") [] none none [0, 1] none none
          none none none).filter (keyConflict ("instagram") (some ("42")))).map
      (fun r => (r.id, r.embedding)) = [(7, some [0, 1])] :=
  ⟨⟨by decide, by decide⟩,
    c3_upsert_twice_idempotent [] 7 9 ("instagram") ("42") ("u1") ("u2") [] []
      none none none none [1, 0] [0, 1] none none none none none none none
      none none none (by decide) (by decide)⟩

/-- A python slice from the front is a sublist. -/
theorem pySlice_sublist {α : Type} (n : Int) (l : List α) :
    (pySlice n l).Sublist l := by
  unfold pySlice
  split
  · exact List.take_sublist _ _
  · exact List.take_sublist _ _

/-- Claim C7 (amended; the original is refuted by c7_counterexample): no
InvalidQuery rejection exists.  In the brute-force engine every stored
record whose embedding length differs from the (nonzero) query's is
silently skipped — the numpy dot raises and the per-record exception
handler continues — so a wrong-length query yields a bare empty result
list, not an error; k is not validated either (k = 0 silently yields []). -/
theorem c7_wrong_length_silent_empty (store : List Row) (q : List ℤ)
    (lim : Int) (hq : normSq q ≠ 0)
    (hlen : ∀ r ∈ store, (r.embedding.getD []).length ≠ q.length) :
    search_similar_images false store q lim = [] := by
  unfold search_similar_images
  rw [if_neg hq]
  show searchFallback store q lim = []
  unfold searchFallback
  have hscan : (vecRows store).filterMap (fun r =>
      match r.embedding with
      | none => none
      | some v =>
        if normSq v = 0 then none
        else if v.length = q.length then some (toHit q r) else none) = [] := by
    rw [List.filterMap_eq_nil_iff]
    intro r hr
    have hmem : r ∈ store := (List.mem_filter.1 hr).1
    cases he : r.embedding with
    | none => rfl
    | some v =>
      have hvl : v.length ≠ q.length := by
        have h2 := hlen r hmem
        rw [he] at h2
        simpa using h2
      by_cases hz : normSq v = 0
      · simp [hz]
      · simp [hz, hvl]
  rw [hscan]
  show pySlice lim (List.insertionSort hitLe []) = []
  unfold pySlice
  split
  · simp
  · simp

set_option maxRecDepth 16384 in
/-- Witness for C7's amended claim: a 2-component nonzero query against a
store holding a 512-component vector. -/
theorem c7_wrong_length_silent_empty_witness :
    (normSq [ (1 : ℤ), 0 ] ≠ 0 ∧
      (∀ r ∈ [sampleRow 1 none (List.replicate 512 1)],
        (r.embedding.getD []).length ≠ [ (1 : ℤ), 0 ].length)) ∧
    search_similar_images false [sampleRow 1 none (List.replicate 512 1)]
      [1, 0] 12 = [] :=
  ⟨⟨by decide, by decide⟩,
    c7_wrong_length_silent_empty [sampleRow 1 none (List.replicate 512 1)]
      [1, 0] 12 (by decide) (by decide)⟩

set_option maxRecDepth 16384 in
/-- Counterexample refuting C7 as stated: a query of length 2 (not 512) is
not rejected with any error — the brute-force engine returns a bare empty
list; and k = 0 < 1 is not rejected either, returning a bare empty list for
a well-formed 512-component query. -/
theorem c7_counterexample :
    ([ (1 : ℤ), 0 ].length ≠ 512) ∧
    search_similar_images false [sampleRow 1 none (List.replicate 512 1)]
      [1, 0] 12 = [] ∧
    search_similar_images false [sampleRow 1 none (List.replicate 512 1)]
      (List.replicate 512 1) 0 = [] ∧ ((0 : Int) < 1) := by decide

/-- Cauchy-Schwarz for the exact dot product and squared norms: the score
pair of any two vectors satisfies num^2 at most den2, i.e. the cosine
similarity lies in the closed interval from -1 to 1. -/
theorem dotList_sq_le (a b : List ℤ) : dotList a b ^ 2 ≤ normSq a * normSq b := by
  induction a generalizing b with
  | nil =>
    simp [dotList, normSq]
  | cons x xs ih =>
    cases b with
    | nil =>
      simp [dotList, normSq]
    | cons y ys =>
      have h := ih ys
      have hA := normSq_nonneg xs
      have hB := normSq_nonneg ys
      unfold dotList normSq at h ⊢
      rw [List.zipWith_cons_cons, List.sum_cons, List.map_cons, List.map_cons,
        List.sum_cons, List.sum_cons]
      have hsub : 0 ≤ (List.map (fun x => x * x) xs).sum *
          (List.map (fun x => x * x) ys).sum -
          (List.zipWith (fun x y => x * y) xs ys).sum ^ 2 := by
        unfold normSq at hA hB
        linarith
      have h2 : 0 ≤ x * x * (List.map (fun x => x * x) ys).sum +
          y * y * (List.map (fun x => x * x) xs).sum :=
        add_nonneg (mul_nonneg (mul_self_nonneg x) (by unfold normSq at hB; exact hB))
          (mul_nonneg (mul_self_nonneg y) (by unfold normSq at hA; exact hA))
      have h1 : (2 * (x * y * (List.zipWith (fun x y => x * y) xs ys).sum)) ^ 2
          ≤ (x * x * (List.map (fun x => x * x) ys).sum +
             y * y * (List.map (fun x => x * x) xs).sum) ^ 2 := by
        nlinarith [sq_nonneg (x * x * (List.map (fun x => x * x) ys).sum -
          y * y * (List.map (fun x => x * x) xs).sum),
          mul_nonneg (sq_nonneg (x * y)) hsub]
      have h3 : 2 * (x * y * (List.zipWith (fun x y => x * y) xs ys).sum)
          ≤ x * x * (List.map (fun x => x * x) ys).sum +
            y * y * (List.map (fun x => x * x) xs).sum := by
        nlinarith [h1, h2]
      nlinarith [h, h3]

/-- Every hit of the flat search carries the exact cosine score of the
query against some stored vector. -/
theorem mem_search_exists_vec (hv : Bool) (store : List Row) (q : List ℤ)
    (lim : Int) (e : SearchHit)
    (h : e ∈ search_similar_images hv store q lim) :
    ∃ v, e.score = mkScore q v := by
  unfold search_similar_images at h
  by_cases hq : normSq q = 0
  · rw [if_pos hq] at h
    cases h
  · rw [if_neg hq] at h
    cases hv with
    | true =>
      unfold searchNative at h
      have h2 : e ∈ List.insertionSort hitLe ((vecRows store).map (toHit q)) :=
        (List.take_sublist _ _).subset h
      have h3 := (List.perm_insertionSort hitLe _).mem_iff.1 h2
      obtain ⟨r, _, rfl⟩ := List.mem_map.1 h3
      exact ⟨r.embedding.getD [], rfl⟩
    | false =>
      unfold searchFallback at h
      have h2 : e ∈ List.insertionSort hitLe ((vecRows store).filterMap
          (fun r => match r.embedding with
            | none => none
            | some v =>
              if normSq v = 0 then none
              else if v.length = q.length then some (toHit q r) else none)) :=
        (pySlice_sublist lim _).subset h
      have h3 := (List.perm_insertionSort hitLe _).mem_iff.1 h2
      obtain ⟨r, _, heq⟩ := List.mem_filterMap.1 h3
      cases he : r.embedding with
      | none => simp [he] at heq
      | some v =>
        by_cases hz : normSq v = 0
        · simp [he, hz] at heq
        · by_cases hl : v.length = q.length
          · simp only [he] at heq
            rw [if_neg hz, if_pos hl] at heq
            have heq2 : toHit q r = e := Option.some.inj heq
            refine ⟨v, ?_⟩
            rw [← heq2]
            show (toHit q r).score = mkScore q v
            simp [toHit, rowScore, he]
          · simp [he, hz, hl] at heq

/-- Every entry of the grouped search carries the exact cosine score of the
query against some stored vector. -/
theorem mem_grouped_exists_vec (hv : Bool) (store : List Row) (q : List ℤ)
    (e : CreatorMatch) (h : e ∈ search_similar_images_by_creator hv store q) :
    ∃ v, e.score = mkScore q v := by
  unfold search_similar_images_by_creator at h
  by_cases hq : normSq q = 0
  · rw [if_pos hq] at h
    cases h
  · rw [if_neg hq] at h
    cases hv with
    | true =>
      unfold nativeGrouped at h
      have h2 := (List.perm_insertionSort matchLe _).mem_iff.1 h
      obtain ⟨c, b, _, rfl⟩ := mem_nativeGroupedRaw store q e h2
      exact ⟨b.embedding.getD [], rfl⟩
    | false =>
      rw [show fallbackGrouped store q = List.insertionSort matchLe
          ((groupedDict store q).map Prod.snd) from
        fallbackGrouped_eq_dict store q] at h
      have h2 := (List.perm_insertionSort matchLe _).mem_iff.1 h
      rw [groupedDict_values store q] at h2
      obtain ⟨c, _, heq⟩ := List.mem_filterMap.1 h2
      cases hbr : bestRowIn (uRows store q) q c with
      | none =>
        rw [hbr] at heq
        cases heq
      | some b =>
        rw [hbr] at heq
        have heq2 : toMatch q c b = e := Option.some.inj heq
        exact ⟨b.embedding.getD [], by rw [← heq2]; rfl⟩

/-- Claim C5 (amended; the original is refuted by c5_counterexample): for
the cosine-distance engines of src/app/database.py — native pgvector and
brute force, flat and grouped — every returned score num/sqrt den2
satisfies num^2 at most den2, i.e. lies in the closed interval from -1.0 to
1.0.  The claim fails only for the legacy inner-product variant of
src/app/app.py, whose score 1 + dot reaches 2 (see the counterexample). -/
theorem c5_score_range (hv : Bool) (store : List Row) (q : List ℤ)
    (lim : Int) :
    (∀ e ∈ search_similar_images hv store q lim,
      e.score.num ^ 2 ≤ e.score.den2) ∧
    (∀ e ∈ search_similar_images_by_creator hv store q,
      e.score.num ^ 2 ≤ e.score.den2) := by
  constructor
  · intro e he
    obtain ⟨v, hval⟩ := mem_search_exists_vec hv store q lim e he
    rw [hval]
    exact dotList_sq_le q v
  · intro e he
    obtain ⟨v, hval⟩ := mem_grouped_exists_vec hv store q e he
    rw [hval]
    exact dotList_sq_le q v

/-- Witness for C5's amended claim: a concrete hit of the native engine. -/
theorem c5_score_range_witness :
    (toHit [ (1 : ℤ), 0 ] (sampleRow 1 none [1, 0])
        ∈ search_similar_images true [sampleRow 1 none [1, 0]] [1, 0] 5) ∧
    (toHit [ (1 : ℤ), 0 ] (sampleRow 1 none [1, 0])).score.num ^ 2
      ≤ (toHit [ (1 : ℤ), 0 ] (sampleRow 1 none [1, 0])).score.den2 :=
  ⟨by decide,
    (c5_score_range true [sampleRow 1 none [1, 0]] [1, 0] 5).1 _ (by decide)⟩

/-- Counterexample refuting C5 as stated: the legacy search_by_upload of
src/app/app.py scores with the inner-product operator, reporting
1 - (embedding inner-product-op query) = 1 + dot; querying a stored unit
vector with itself returns score 2, outside the closed interval
from -1 to 1. -/
theorem c5_counterexample :
    (search_by_upload [sampleRow 1 none [1, 0]] [1, 0] 12).map UploadHit.score
      = [(2 : ℤ)] ∧ ¬ ((2 : ℤ) ≤ 1) := by decide

/-- Claim C8 (confirmed): for a nonzero query and k at least 1, search
returns at most k hits whose scores are adjacentwise non-increasing (hitLe
a b says b's score is at most a's), under both engines. -/
theorem c8_topk_monotone (hv : Bool) (store : List Row) (q : List ℤ)
    (k : Int) (hq : normSq q ≠ 0) (hk : 1 ≤ k) :
    ((search_similar_images hv store q k).length : Int) ≤ k ∧
    List.Chain' hitLe (search_similar_images hv store q k) := by
  have htot : ∀ a b : SearchHit, hitLe a b ∨ hitLe b a := fun a b =>
    (scoreLe_total b.score a.score).imp id id
  have hk0 : (0 : Int) ≤ k := by linarith
  unfold search_similar_images
  rw [if_neg hq]
  cases hv with
  | true =>
    show ((searchNative store q k).length : Int) ≤ k ∧
      List.Chain' hitLe (searchNative store q k)
    unfold searchNative
    constructor
    · have h1 := List.length_take_le k.toNat
        (List.insertionSort hitLe ((vecRows store).map (toHit q)))
      calc ((List.take k.toNat (List.insertionSort hitLe
            ((vecRows store).map (toHit q)))).length : Int)
          ≤ (k.toNat : Int) := Int.ofNat_le.2 h1
        _ = k := Int.toNat_of_nonneg hk0
    · exact (chain'_insertionSort hitLe htot _).take _
  | false =>
    show ((searchFallback store q k).length : Int) ≤ k ∧
      List.Chain' hitLe (searchFallback store q k)
    unfold searchFallback pySlice
    rw [if_pos hk0]
    constructor
    · have h1 := List.length_take_le k.toNat
        (List.insertionSort hitLe ((vecRows store).filterMap (fun r =>
          match r.embedding with
          | none => none
          | some v =>
            if normSq v = 0 then none
            else if v.length = q.length then some (toHit q r) else none)))
      calc ((List.take k.toNat (List.insertionSort hitLe
            ((vecRows store).filterMap (fun r =>
              match r.embedding with
              | none => none
              | some v =>
                if normSq v = 0 then none
                else if v.length = q.length then some (toHit q r)
                else none)))).length : Int)
          ≤ (k.toNat : Int) := Int.ofNat_le.2 h1
        _ = k := Int.toNat_of_nonneg hk0
    · exact (chain'_insertionSort hitLe htot _).take _

/-- Witness for C8: a three-row store under the brute-force engine. -/
theorem c8_topk_monotone_witness :
    (normSq [ (1 : ℤ), 0 ] ≠ 0 ∧ (1 : Int) ≤ 2) ∧
    (((search_similar_images false
        [sampleRow 1 none [1, 0], sampleRow 2 none [0, 1],
          sampleRow 3 none [1, 1]] [1, 0] 2).length : Int) ≤ 2 ∧
      List.Chain' hitLe (search_similar_images false
        [sampleRow 1 none [1, 0], sampleRow 2 none [0, 1],
          sampleRow 3 none [1, 1]] [1, 0] 2)) :=
  ⟨⟨by decide, by decide⟩,
    c8_topk_monotone false
      [sampleRow 1 none [1, 0], sampleRow 2 none [0, 1],
        sampleRow 3 none [1, 1]] [1, 0] 2 (by decide) (by decide)⟩

/-- Claim C2 (amended; the original is refuted by c2_counterexample): the
brute-force grouped search returns exactly one entry per distinct owner
having at least one record with a non-null, NONZERO-norm, length-matching
vector (a zero-norm or wrong-length vector is silently skipped, so an owner
with only such records is dropped even though its vector is non-null); a
null-owner record never contributes an entry; entries are ordered by score
descending.  The native engine (where cosine distance is defined, i.e. no
zero-norm embeddings) returns exactly one entry per owner with at least one
non-null vector, in descending score order. -/
theorem c2_best_per_owner_contract (store : List Row) (q : List ℤ)
    (hq : normSq q ≠ 0) :
    (((search_similar_images_by_creator false store q).map
        CreatorMatch.creatorUsername).Nodup ∧
      (∀ c, c ∈ (search_similar_images_by_creator false store q).map
          CreatorMatch.creatorUsername ↔
        ∃ r ∈ store, r.creatorUsername = some c ∧ ∃ v, r.embedding = some v ∧
          normSq v ≠ 0 ∧ v.length = q.length) ∧
      List.Chain' matchLe (search_similar_images_by_creator false store q)) ∧
    ((∀ r ∈ groupRows store, usableB q r = true) →
      (((search_similar_images_by_creator true store q).map
          CreatorMatch.creatorUsername).Nodup ∧
        (∀ c, c ∈ (search_similar_images_by_creator true store q).map
            CreatorMatch.creatorUsername ↔
          ∃ r ∈ store, r.creatorUsername = some c ∧
            r.embedding.isSome = true) ∧
        List.Chain' matchLe (search_similar_images_by_creator true store q))) := by
  have mtot : ∀ a b : CreatorMatch, matchLe a b ∨ matchLe b a := fun a b =>
    (scoreLe_total b.score a.score).imp id id
  have hout_false : search_similar_images_by_creator false store q
      = List.insertionSort matchLe ((groupedDict store q).map Prod.snd) := by
    unfold search_similar_images_by_creator
    rw [if_neg hq]
    exact fallbackGrouped_eq_dict store q
  have hout_true : search_similar_images_by_creator true store q
      = List.insertionSort matchLe (nativeGroupedRaw store q) := by
    unfold search_similar_images_by_creator
    rw [if_neg hq]
    rfl
  constructor
  · -- brute-force engine
    have hkeysnodup := (groupedDict_char store q).1
    have hFval : ∀ c ∈ (groupedDict store q).map Prod.fst,
        ∃ e, (bestRowIn (uRows store q) q c).map (toMatch q c) = some e ∧
          e.creatorUsername = c := by
      intro c hc
      have hsome : (bestRowIn (uRows store q) q c).isSome := by
        rw [bestRowIn_isSome_iff]
        exact (groupedDict_keys_mem store q c).1 hc
      obtain ⟨b, hb⟩ := Option.isSome_iff_exists.1 hsome
      exact ⟨toMatch q c b, by rw [hb]; rfl, rfl⟩
    have hvalmap : ((groupedDict store q).map Prod.snd).map
        CreatorMatch.creatorUsername = (groupedDict store q).map Prod.fst := by
      rw [groupedDict_values store q]
      exact filterMap_creator_map _ _ hFval
    have hpermmap : ((search_similar_images_by_creator false store q).map
        CreatorMatch.creatorUsername).Perm
        ((groupedDict store q).map Prod.fst) := by
      rw [← hvalmap, hout_false]
      exact (List.perm_insertionSort matchLe _).map _
    refine ⟨hpermmap.nodup_iff.2 hkeysnodup, ?_, ?_⟩
    · intro c
      rw [hpermmap.mem_iff, groupedDict_keys_mem store q c]
      constructor
      · rintro ⟨r, hr, hcr⟩
        have hr1 : r ∈ (groupRows store) ∧ usableB q r = true := by
          have h2 := List.mem_filter.1 hr
          exact ⟨h2.1, h2.2⟩
        have hr2 : r ∈ store := (List.mem_filter.1 hr1.1).1
        obtain ⟨c2, v, hc2, hvv, hnz, hlen⟩ := (usableB_iff q r).1 hr1.2
        refine ⟨r, hr2, hcr, v, hvv, hnz, hlen⟩
      · rintro ⟨r, hr, hcr, v, hvv, hnz, hlen⟩
        refine ⟨r, ?_, hcr⟩
        have hgrp : r ∈ groupRows store := by
          rw [groupRows, List.mem_filter]
          refine ⟨hr, ?_⟩
          simp [hvv, hcr]
        rw [uRows, List.mem_filter]
        exact ⟨hgrp, (usableB_iff q r).2 ⟨c, v, hcr, hvv, hnz, hlen⟩⟩
    · rw [hout_false]
      exact chain'_insertionSort matchLe mtot _
  · -- native engine
    intro _
    have hpermN : ((search_similar_images_by_creator true store q).map
        CreatorMatch.creatorUsername).Perm
        (List.insertionSort strLe (groupOwners store).dedup) := by
      rw [hout_true, ← nativeGroupedRaw_creators store q]
      exact (List.perm_insertionSort matchLe _).map _
    refine ⟨hpermN.nodup_iff.2 (sortedOwners_nodup store), ?_, ?_⟩
    · intro c
      rw [hpermN.mem_iff, sortedOwners_mem, groupOwners_mem]
      constructor
      · rintro ⟨r, hr, hcr⟩
        have h2 := List.mem_filter.1 hr
        have h3 : r.embedding.isSome = true ∧ r.creatorUsername.isSome = true := by
          simpa using h2.2
        exact ⟨r, h2.1, hcr, h3.1⟩
      · rintro ⟨r, hr, hcr, hemb⟩
        refine ⟨r, ?_, hcr⟩
        rw [groupRows, List.mem_filter]
        refine ⟨hr, ?_⟩
        simp [hemb, hcr]
    · rw [hout_true]
      exact chain'_insertionSort matchLe mtot _

/-- Witness for C2's amended claim: two owners with usable vectors. -/
theorem c2_best_per_owner_contract_witness :
    (normSq [ (1 : ℤ), 0 ] ≠ 0) ∧
    ((((search_similar_images_by_creator false
          [sampleRow 1 (some ("a")) [1, 0], sampleRow 2 (some ("b")) [0, 1]]
          [1, 0]).map CreatorMatch.creatorUsername).Nodup ∧
      (∀ c, c ∈ (search_similar_images_by_creator false
          [sampleRow 1 (some ("a")) [1, 0], sampleRow 2 (some ("b")) [0, 1]]
          [1, 0]).map CreatorMatch.creatorUsername ↔
        ∃ r ∈ [sampleRow 1 (some ("a")) [1, 0],
            sampleRow 2 (some ("b")) [0, 1]],
          r.creatorUsername = some c ∧ ∃ v, r.embedding = some v ∧
            normSq v ≠ 0 ∧ v.length = [ (1 : ℤ), 0 ].length) ∧
      List.Chain' matchLe (search_similar_images_by_creator false
        [sampleRow 1 (some ("a")) [1, 0], sampleRow 2 (some ("b")) [0, 1]]
        [1, 0])) ∧
    ((∀ r ∈ groupRows [sampleRow 1 (some ("a")) [1, 0],
          sampleRow 2 (some ("b")) [0, 1]],
        usableB [ (1 : ℤ), 0 ] r = true) →
      (((search_similar_images_by_creator true
          [sampleRow 1 (some ("a")) [1, 0], sampleRow 2 (some ("b")) [0, 1]]
          [1, 0]).map CreatorMatch.creatorUsername).Nodup ∧
        (∀ c, c ∈ (search_similar_images_by_creator true
            [sampleRow 1 (some ("a")) [1, 0], sampleRow 2 (some ("b")) [0, 1]]
            [1, 0]).map CreatorMatch.creatorUsername ↔
          ∃ r ∈ [sampleRow 1 (some ("a")) [1, 0],
              sampleRow 2 (some ("b")) [0, 1]],
            r.creatorUsername = some c ∧ r.embedding.isSome = true) ∧
        List.Chain' matchLe (search_similar_images_by_creator true
          [sampleRow 1 (some ("a")) [1, 0], sampleRow 2 (some ("b")) [0, 1]]
          [1, 0])))) :=
  ⟨by decide,
    c2_best_per_owner_contract
      [sampleRow 1 (some ("a")) [1, 0], sampleRow 2 (some ("b")) [0, 1]]
      [1, 0] (by decide)⟩

/-- Counterexample refuting C2 as stated: owner a holds one record with a
non-null (but zero-norm) vector, yet the brute-force grouped search returns
no entry at all for a nonzero query. -/
theorem c2_counterexample :
    search_similar_images_by_creator false [sampleRow 1 (some ("a")) [0, 0]]
      [1, 0] = [] ∧
    (sampleRow 1 (some ("a")) [0, 0]).creatorUsername = some ("a") ∧
    (sampleRow 1 (some ("a")) [0, 0]).embedding.isSome = true ∧
    normSq [ (1 : ℤ), 0 ] ≠ 0 := by decide

/-- Claim C1 (amended; the original is refuted by c1_counterexample):
whenever every visible stored embedding has nonzero norm and the query's
length (so cosine distance is defined and numpy.dot does not raise), the
index-assisted DISTINCT ON strategy and the scan-and-reduce fallback of
search_similar_images_by_creator return the same entries up to order (a
permutation: same owners, same best record and score per owner); and when
additionally no two distinct owners tie exactly in best score, the two
result lists are identical.  On an exact cross-owner tie the orders differ
(username order versus scan order), and a zero-norm or wrong-length stored
vector is skipped only by the fallback. -/
theorem c1_grouped_strategies_agree (store : List Row) (q : List ℤ)
    (hq : normSq q ≠ 0)
    (husable : ∀ r ∈ groupRows store, usableB q r = true) :
    (search_similar_images_by_creator true store q).Perm
      (search_similar_images_by_creator false store q) ∧
    ((nativeGroupedRaw store q).Pairwise (fun a b =>
        ¬(Score.le a.score b.score ∧ Score.le b.score a.score)) →
      search_similar_images_by_creator true store q
        = search_similar_images_by_creator false store q) := by
  have hout_true : search_similar_images_by_creator true store q
      = List.insertionSort matchLe (nativeGroupedRaw store q) := by
    unfold search_similar_images_by_creator
    rw [if_neg hq]
    rfl
  have hout_false : search_similar_images_by_creator false store q
      = List.insertionSort matchLe ((groupedDict store q).map Prod.snd) := by
    unfold search_similar_images_by_creator
    rw [if_neg hq]
    exact fallbackGrouped_eq_dict store q
  rw [hout_true, hout_false]
  constructor
  · exact (List.perm_insertionSort matchLe _).trans
      (((grouped_raw_perm store q husable).symm).trans
        (List.perm_insertionSort matchLe _).symm)
  · intro hties
    exact sorted_eq_of_perm (nativeGroupedRaw store q)
      ((groupedDict store q).map Prod.snd)
      (grouped_raw_perm store q husable).symm
      (nativeGroupedRaw_den2_pos store q hq husable) hties

/-- Witness for C1's amended claim: two owners with distinct best scores. -/
theorem c1_grouped_strategies_agree_witness :
    (normSq [ (1 : ℤ), 0 ] ≠ 0 ∧
      (∀ r ∈ groupRows [sampleRow 1 (some ("b")) [1, 0],
          sampleRow 2 (some ("a")) [0, 1]], usableB [ (1 : ℤ), 0 ] r = true) ∧
      (nativeGroupedRaw [sampleRow 1 (some ("b")) [1, 0],
          sampleRow 2 (some ("a")) [0, 1]] [1, 0]).Pairwise (fun a b =>
        ¬(Score.le a.score b.score ∧ Score.le b.score a.score))) ∧
    search_similar_images_by_creator true
        [sampleRow 1 (some ("b")) [1, 0], sampleRow 2 (some ("a")) [0, 1]]
        [1, 0]
      = search_similar_images_by_creator false
        [sampleRow 1 (some ("b")) [1, 0], sampleRow 2 (some ("a")) [0, 1]]
        [1, 0] :=
  ⟨⟨by decide, by decide, by decide⟩,
    (c1_grouped_strategies_agree
      [sampleRow 1 (some ("b")) [1, 0], sampleRow 2 (some ("a")) [0, 1]]
      [1, 0] (by decide) (by decide)).2 (by decide)⟩

/-- Counterexample refuting C1 as stated: two owners, scanned in the order
b then a, whose single records score identically against the query.  The
DISTINCT ON strategy lists owner a first (username order), the
scan-and-reduce strategy lists owner b first (first-discovery order), so
the result lists differ. -/
theorem c1_counterexample :
    search_similar_images_by_creator true
        [sampleRow 1 (some ("b")) [1, 0], sampleRow 2 (some ("a")) [1, 0]]
        [1, 0]
      ≠ search_similar_images_by_creator false
        [sampleRow 1 (some ("b")) [1, 0], sampleRow 2 (some ("a")) [1, 0]]
        [1, 0] := by decide
